import Mathlib

/-!
Verification of the dynamic hashmap implemented in `src/hashmap.c`
(`Guerreiro51/Dynamic-Hashmap`).

The C code is shallowly embedded: the backing array becomes a `List` of
slots, 32-bit unsigned arithmetic becomes `Nat` arithmetic reduced
modulo `2 ^ 32` at every point where the C computation can wrap, the
memory allocator becomes an explicit oracle `alloc : Nat → Bool` telling
whether a `calloc` of a given element count succeeds, and the unbounded
`while` loop inside `hashmapPut` becomes structural recursion on a fuel
argument (in the C program the loop is bounded because the table size
doubles modulo `2 ^ 32` until `hashmapCreate` rejects it, so sufficient
fuel reproduces the source behaviour exactly; all theorems below are
stated for arbitrary fuel).  Key bytes are `Nat`s below 256 read through
`List.getD`, which mirrors `(unsigned char)s[i]` indexing.
-/

namespace DynamicHashmap

/-- Modulus of C `unsigned` (32-bit) arithmetic. -/
def U32 : Nat := 4294967296

/-- `HASHMAP_MAX_CHAIN_LENGTH` from `hashmap.h`. -/
def HASHMAP_MAX_CHAIN_LENGTH : Nat := 8

/-- One bucket of the table: `HashmapElement` from `hashmap.h`.
`key` is the byte sequence behind the stored `const char*`. -/
structure HashmapElement where
  key : List Nat
  keyLen : Nat
  used : Bool
  data : Nat
deriving DecidableEq, Repr

/-- A slot whose bytes are all zero (the state `calloc` and `memset`
produce): null key, zero length, not used, null value. -/
def emptyElement : HashmapElement := ⟨[], 0, false, 0⟩

/-- The `Hashmap` struct from `hashmap.h`. -/
structure Hashmap where
  tableSize : Nat
  size : Nat
  data : List HashmapElement
deriving DecidableEq, Repr

/-- Read bucket `i`; out-of-range reads yield a zeroed slot. -/
def slotD (t : Hashmap) (i : Nat) : HashmapElement := t.data.getD i emptyElement

/-- Byte-for-byte comparison of the first `len` bytes, i.e.
`memcmp(a, b, len) == 0`. -/
def bytesEq (a b : List Nat) (len : Nat) : Bool :=
  (List.range len).all fun i => a.getD i 0 == b.getD i 0

/-- `hashmapCheckIfMatch`: equal stored length and equal bytes. -/
def hashmapCheckIfMatch (element : HashmapElement) (key : List Nat) (len : Nat) : Bool :=
  element.keyLen == len && bytesEq element.key key len

/-- The static CRC-32C table from `hashmapCRC32`. -/
def crc32tab : List Nat := [
    0x00000000, 0xF26B8303, 0xE13B70F7, 0x1350F3F4, 0xC79A971F, 0x35F1141C, 0x26A1E7E8, 0xD4CA64EB,
    0x8AD958CF, 0x78B2DBCC, 0x6BE22838, 0x9989AB3B, 0x4D43CFD0, 0xBF284CD3, 0xAC78BF27, 0x5E133C24,
    0x105EC76F, 0xE235446C, 0xF165B798, 0x030E349B, 0xD7C45070, 0x25AFD373, 0x36FF2087, 0xC494A384,
    0x9A879FA0, 0x68EC1CA3, 0x7BBCEF57, 0x89D76C54, 0x5D1D08BF, 0xAF768BBC, 0xBC267848, 0x4E4DFB4B,
    0x20BD8EDE, 0xD2D60DDD, 0xC186FE29, 0x33ED7D2A, 0xE72719C1, 0x154C9AC2, 0x061C6936, 0xF477EA35,
    0xAA64D611, 0x580F5512, 0x4B5FA6E6, 0xB93425E5, 0x6DFE410E, 0x9F95C20D, 0x8CC531F9, 0x7EAEB2FA,
    0x30E349B1, 0xC288CAB2, 0xD1D83946, 0x23B3BA45, 0xF779DEAE, 0x05125DAD, 0x1642AE59, 0xE4292D5A,
    0xBA3A117E, 0x4851927D, 0x5B016189, 0xA96AE28A, 0x7DA08661, 0x8FCB0562, 0x9C9BF696, 0x6EF07595,
    0x417B1DBC, 0xB3109EBF, 0xA0406D4B, 0x522BEE48, 0x86E18AA3, 0x748A09A0, 0x67DAFA54, 0x95B17957,
    0xCBA24573, 0x39C9C670, 0x2A993584, 0xD8F2B687, 0x0C38D26C, 0xFE53516F, 0xED03A29B, 0x1F682198,
    0x5125DAD3, 0xA34E59D0, 0xB01EAA24, 0x42752927, 0x96BF4DCC, 0x64D4CECF, 0x77843D3B, 0x85EFBE38,
    0xDBFC821C, 0x2997011F, 0x3AC7F2EB, 0xC8AC71E8, 0x1C661503, 0xEE0D9600, 0xFD5D65F4, 0x0F36E6F7,
    0x61C69362, 0x93AD1061, 0x80FDE395, 0x72966096, 0xA65C047D, 0x5437877E, 0x4767748A, 0xB50CF789,
    0xEB1FCBAD, 0x197448AE, 0x0A24BB5A, 0xF84F3859, 0x2C855CB2, 0xDEEEDFB1, 0xCDBE2C45, 0x3FD5AF46,
    0x7198540D, 0x83F3D70E, 0x90A324FA, 0x62C8A7F9, 0xB602C312, 0x44694011, 0x5739B3E5, 0xA55230E6,
    0xFB410CC2, 0x092A8FC1, 0x1A7A7C35, 0xE811FF36, 0x3CDB9BDD, 0xCEB018DE, 0xDDE0EB2A, 0x2F8B6829,
    0x82F63B78, 0x709DB87B, 0x63CD4B8F, 0x91A6C88C, 0x456CAC67, 0xB7072F64, 0xA457DC90, 0x563C5F93,
    0x082F63B7, 0xFA44E0B4, 0xE9141340, 0x1B7F9043, 0xCFB5F4A8, 0x3DDE77AB, 0x2E8E845F, 0xDCE5075C,
    0x92A8FC17, 0x60C37F14, 0x73938CE0, 0x81F80FE3, 0x55326B08, 0xA759E80B, 0xB4091BFF, 0x466298FC,
    0x1871A4D8, 0xEA1A27DB, 0xF94AD42F, 0x0B21572C, 0xDFEB33C7, 0x2D80B0C4, 0x3ED04330, 0xCCBBC033,
    0xA24BB5A6, 0x502036A5, 0x4370C551, 0xB11B4652, 0x65D122B9, 0x97BAA1BA, 0x84EA524E, 0x7681D14D,
    0x2892ED69, 0xDAF96E6A, 0xC9A99D9E, 0x3BC21E9D, 0xEF087A76, 0x1D63F975, 0x0E330A81, 0xFC588982,
    0xB21572C9, 0x407EF1CA, 0x532E023E, 0xA145813D, 0x758FE5D6, 0x87E466D5, 0x94B49521, 0x66DF1622,
    0x38CC2A06, 0xCAA7A905, 0xD9F75AF1, 0x2B9CD9F2, 0xFF56BD19, 0x0D3D3E1A, 0x1E6DCDEE, 0xEC064EED,
    0xC38D26C4, 0x31E6A5C7, 0x22B65633, 0xD0DDD530, 0x0417B1DB, 0xF67C32D8, 0xE52CC12C, 0x1747422F,
    0x49547E0B, 0xBB3FFD08, 0xA86F0EFC, 0x5A048DFF, 0x8ECEE914, 0x7CA56A17, 0x6FF599E3, 0x9D9E1AE0,
    0xD3D3E1AB, 0x21B862A8, 0x32E8915C, 0xC083125F, 0x144976B4, 0xE622F5B7, 0xF5720643, 0x07198540,
    0x590AB964, 0xAB613A67, 0xB831C993, 0x4A5A4A90, 0x9E902E7B, 0x6CFBAD78, 0x7FAB5E8C, 0x8DC0DD8F,
    0xE330A81A, 0x115B2B19, 0x020BD8ED, 0xF0605BEE, 0x24AA3F05, 0xD6C1BC06, 0xC5914FF2, 0x37FACCF1,
    0x69E9F0D5, 0x9B8273D6, 0x88D28022, 0x7AB90321, 0xAE7367CA, 0x5C18E4C9, 0x4F48173D, 0xBD23943E,
    0xF36E6F75, 0x0105EC76, 0x12551F82, 0xE03E9C81, 0x34F4F86A, 0xC69F7B69, 0xD5CF889D, 0x27A40B9E,
    0x79B737BA, 0x8BDCB4B9, 0x988C474D, 0x6AE7C44E, 0xBE2DA0A5, 0x4C4623A6, 0x5F16D052, 0xAD7D5351]

/-- `hashmapCRC32`: byte-wise CRC over the first `len` bytes of `s`.
`(unsigned char)` casts become `% 256`. -/
def hashmapCRC32 (s : List Nat) (len : Nat) : Nat :=
  (List.range len).foldl
    (fun crc32val i =>
      crc32tab.getD ((crc32val % 256) ^^^ (s.getD i 0 % 256)) 0 ^^^ (crc32val >>> 8))
    0

/-- `hashmapStringHasher`: CRC32, Jenkins mix, Knuth multiplicative step,
then reduction modulo the current table size.  Every addition, shift and
multiplication that can exceed 32 bits is reduced modulo `2 ^ 32`. -/
def hashmapStringHasher (hashmap : Hashmap) (keystring : List Nat) (len : Nat) : Nat :=
  let key := hashmapCRC32 keystring len
  let key := (key + (key <<< 12)) % U32
  let key := key ^^^ (key >>> 22)
  let key := (key + (key <<< 4)) % U32
  let key := key ^^^ (key >>> 9)
  let key := (key + (key <<< 10)) % U32
  let key := key ^^^ (key >>> 2)
  let key := (key + (key <<< 7)) % U32
  let key := key ^^^ (key >>> 12)
  let key := ((key >>> 3) * 2654435761) % U32
  key % hashmap.tableSize

/-- The C `for` loop of `hashmapGet`: scan `n` slots starting at `curr`,
stepping `+1 mod tableSize`, returning the first occupied matching slot's
value. -/
def hashmapGetLoop (t : Hashmap) (key : List Nat) (len : Nat) : Nat → Nat → Option Nat
  | _, 0 => none
  | curr, n + 1 =>
    if (slotD t curr).used && hashmapCheckIfMatch (slotD t curr) key len then
      some (slotD t curr).data
    else
      hashmapGetLoop t key len ((curr + 1) % t.tableSize) n

/-- `hashmapGet`: returns the stored value, or `none` for C's `NULL`. -/
def hashmapGet (hashmap : Hashmap) (key : List Nat) (len : Nat) : Option Nat :=
  hashmapGetLoop hashmap key len (hashmapStringHasher hashmap key len) HASHMAP_MAX_CHAIN_LENGTH

/-- `memset(&hashmap->data[curr], 0, sizeof(HashmapElement))` followed by
`hashmap->size--`: the unsigned decrement wraps to `2 ^ 32 - 1` at zero
(for the in-range values a C `unsigned` can take, this conditional is
exactly `(size + 2 ^ 32 - 1) % 2 ^ 32`). -/
def clearSlot (t : Hashmap) (i : Nat) : Hashmap :=
  { t with data := t.data.set i emptyElement,
           size := if t.size = 0 then 4294967295 else t.size - 1 }

/-- The C `for` loop of `hashmapRemove`. -/
def hashmapRemoveLoop (t : Hashmap) (key : List Nat) (len : Nat) : Nat → Nat → Int × Hashmap
  | _, 0 => (1, t)
  | curr, n + 1 =>
    if (slotD t curr).used && hashmapCheckIfMatch (slotD t curr) key len then
      (0, clearSlot t curr)
    else
      hashmapRemoveLoop t key len ((curr + 1) % t.tableSize) n

/-- `hashmapRemove`: `(0, updated table)` on success, `(1, unchanged)` if
the key is not found within the probe window. -/
def hashmapRemove (hashmap : Hashmap) (key : List Nat) (len : Nat) : Int × Hashmap :=
  hashmapRemoveLoop hashmap key len (hashmapStringHasher hashmap key len)
    HASHMAP_MAX_CHAIN_LENGTH

/-- First probing loop of `hashmapGetBucket`: look for an occupied slot
whose key matches, counting occupied slots into `totalUsed` on the way. -/
def hashmapProbeMatch (t : Hashmap) (key : List Nat) (len : Nat) :
    Nat → Nat → Nat → Option Nat × Nat
  | _, totalUsed, 0 => (none, totalUsed)
  | curr, totalUsed, n + 1 =>
    let used := (slotD t curr).used
    let totalUsed := totalUsed + (if used then 1 else 0)
    if used && hashmapCheckIfMatch (slotD t curr) key len then
      (some curr, totalUsed)
    else
      hashmapProbeMatch t key len ((curr + 1) % t.tableSize) totalUsed n

/-- Second probing loop of `hashmapGetBucket`: first unoccupied slot. -/
def hashmapProbeFree (t : Hashmap) : Nat → Nat → Option Nat
  | _, 0 => none
  | curr, n + 1 =>
    if !(slotD t curr).used then some curr
    else hashmapProbeFree t ((curr + 1) % t.tableSize) n

/-- `hashmapGetBucket`: C's `bool` result plus `unsigned* outIndex` become
`Option Nat` (`none` is the "needs growth" outcome). -/
def hashmapGetBucket (hashmap : Hashmap) (key : List Nat) (len : Nat) : Option Nat :=
  if hashmap.tableSize ≤ hashmap.size then none
  else
    let start := hashmapStringHasher hashmap key len
    match hashmapProbeMatch hashmap key len start 0 HASHMAP_MAX_CHAIN_LENGTH with
    | (some outIndex, _) => some outIndex
    | (none, totalUsed) =>
      if totalUsed < HASHMAP_MAX_CHAIN_LENGTH then
        hashmapProbeFree hashmap start HASHMAP_MAX_CHAIN_LENGTH
      else
        none

/-- The slot-writing tail of `hashmapPut`: store value, key and length,
then mark the slot used and bump `size` if it was free. -/
def putAt (t : Hashmap) (i : Nat) (key : List Nat) (len : Nat) (value : Nat) : Hashmap :=
  let e := slotD t i
  let e := { e with data := value, key := key, keyLen := len }
  if (slotD t i).used then
    { t with data := t.data.set i e }
  else
    { t with data := t.data.set i { e with used := true }, size := (t.size + 1) % U32 }

/-- `hashmapCreate`.  `outHashmap` is the caller-provided storage: its
`tableSize` and `size` fields are overwritten before validation, and its
`data` field is only assigned when `calloc` (the `alloc` oracle) runs and
succeeds. -/
def hashmapCreate (alloc : Nat → Bool) (initialSize : Nat) (outHashmap : Hashmap) :
    Int × Hashmap :=
  let out := { outHashmap with tableSize := initialSize, size := 0 }
  if initialSize = 0 ∨ (initialSize &&& (initialSize - 1)) ≠ 0 then
    (1, out)
  else if alloc initialSize then
    (0, { out with data := List.replicate initialSize emptyElement })
  else
    (1, out)

/-- `hashmapDestroy`: `free` plus `memset(hashmap, 0, sizeof(Hashmap))`. -/
def hashmapDestroy (_hashmap : Hashmap) : Hashmap :=
  { tableSize := 0, size := 0, data := [] }

/-- The loop body of `hashmapApplyIterator`, recursing over the list of
bucket indices still to visit.  The visitor is a pure function from the
context to a return flag and an updated context (the C visitor mutates
its context through the pointer it receives). -/
def hashmapApplyIteratorAux {σ : Type} (f : σ → HashmapElement → Int × σ) :
    List Nat → Hashmap → σ → Int × Hashmap × σ
  | [], t, c => (0, t, c)
  | i :: is, t, c =>
    let elem := slotD t i
    if elem.used then
      let r := f c elem
      if r.1 = -1 then hashmapApplyIteratorAux f is (clearSlot t i) r.2
      else if r.1 = 0 then hashmapApplyIteratorAux f is t r.2
      else (1, t, r.2)
    else
      hashmapApplyIteratorAux f is t c

/-- `hashmapApplyIterator`: visit buckets `0, 1, …, tableSize - 1`. -/
def hashmapApplyIterator {σ : Type} (hashmap : Hashmap)
    (f : σ → HashmapElement → Int × σ) (context : σ) : Int × Hashmap × σ :=
  hashmapApplyIteratorAux f (List.range hashmap.tableSize) hashmap context

/-- `hashmapRehashIterator`, parameterised by the `hashmapPut` instance it
calls (in C this recursion goes through a function pointer). -/
def hashmapRehashIterator (put : Hashmap → List Nat → Nat → Nat → Int × Hashmap)
    (newHashmap : Hashmap) (element : HashmapElement) : Int × Hashmap :=
  let r := put newHashmap element.key element.keyLen element.data
  if r.1 ≠ 0 then (1, r.2) else (-1, r.2)

/-- The body of `hashmapExpand`, parameterised by the `hashmapPut`
instance used for re-insertion.  The local `Hashmap newHash` starts
uninitialised; `hashmapCreate` writes every field that is subsequently
read.  On iterator failure the (partially cleared) old table is
returned; on success the old backing array is destroyed and the new
table replaces the old one (`memcpy`). -/
def hashmapExpandWith (alloc : Nat → Bool)
    (put : Hashmap → List Nat → Nat → Nat → Int × Hashmap) (hashmap : Hashmap) :
    Int × Hashmap :=
  let newSize := (2 * hashmap.tableSize) % U32
  let created := hashmapCreate alloc newSize { tableSize := 0, size := 0, data := [] }
  if created.1 ≠ 0 then (created.1, hashmap)
  else
    let iterated := hashmapApplyIterator hashmap (hashmapRehashIterator put) created.2
    if iterated.1 ≠ 0 then (iterated.1, iterated.2.1)
    else
      let _ := hashmapDestroy iterated.2.1
      (0, iterated.2.2)

/-- `hashmapPut`: the `while (!hashmapGetBucket(...)) { if (hashmapExpand(...)) return 1; }`
loop as structural recursion on `fuel`.  In the C program the loop runs
at most 33 times (the table size doubles modulo `2 ^ 32` until
`hashmapCreate` rejects it), so any fuel of that size reproduces the
source exactly; theorems are stated for arbitrary fuel. -/
def hashmapPut (alloc : Nat → Bool) :
    Nat → Hashmap → List Nat → Nat → Nat → Int × Hashmap
  | fuel, hashmap, key, len, value =>
    match hashmapGetBucket hashmap key len with
    | some outIndex => (0, putAt hashmap outIndex key len value)
    | none =>
      match fuel with
      | 0 => (1, hashmap)
      | fuel + 1 =>
        let expanded :=
          hashmapExpandWith alloc (fun a b c d => hashmapPut alloc fuel a b c d) hashmap
        if expanded.1 ≠ 0 then (1, expanded.2)
        else hashmapPut alloc fuel expanded.2 key len value

/-- `hashmapExpand`, with the fuel used by the re-insertion `hashmapPut`. -/
def hashmapExpand (alloc : Nat → Bool) (fuel : Nat) (hashmap : Hashmap) : Int × Hashmap :=
  hashmapExpandWith alloc (fun a b c d => hashmapPut alloc fuel a b c d) hashmap

/-- `hashmapDestroyWithOwnership`: run the visitor over every occupied
slot, report (`true`) if the traversal was incomplete, then destroy the
table. -/
def hashmapDestroyWithOwnership {σ : Type} (hashmap : Hashmap)
    (iterator : σ → HashmapElement → Int × σ) (context : σ) : Bool × Hashmap × σ :=
  let r := hashmapApplyIterator hashmap iterator context
  (r.1 ≠ 0, hashmapDestroy r.2.1, r.2.2)

/-- An allocator that always succeeds. -/
def allocAll : Nat → Bool := fun _ => true

/-! ## Specification-level views of the probe sequence -/

/-- Whether bucket `j` holds a key matching `(key, len)`. -/
def isMatchAt (t : Hashmap) (key : List Nat) (len : Nat) (j : Nat) : Bool :=
  (slotD t j).used && hashmapCheckIfMatch (slotD t j) key len

/-- The sequence of bucket indices a probe loop of `n` steps visits when
it starts at `curr`: step `+1` modulo the table size. -/
def probeWindow (t : Hashmap) : Nat → Nat → List Nat
  | _, 0 => []
  | curr, n + 1 => curr :: probeWindow t ((curr + 1) % t.tableSize) n

/-- The probe window of a key: `HASHMAP_MAX_CHAIN_LENGTH` indices from
the hash-derived start. -/
def bucketWindow (t : Hashmap) (key : List Nat) (len : Nat) : List Nat :=
  probeWindow t (hashmapStringHasher t key len) HASHMAP_MAX_CHAIN_LENGTH

/-- Whether some occupied slot of the table matches `(key, len)`. -/
def containsKey (t : Hashmap) (key : List Nat) (len : Nat) : Bool :=
  t.data.any fun e => e.used && hashmapCheckIfMatch e key len


/-- Two `(bytes, length)` pairs denote the same key: equal length and
equal bytes, exactly the relation `hashmapCheckIfMatch` tests. -/
def kMatch (k1 : List Nat) (l1 : Nat) (k2 : List Nat) (l2 : Nat) : Bool :=
  (l1 == l2) && bytesEq k1 k2 l2

/-- Invariant of every live table: the capacity is a nonzero power of
two that fits in 32 bits, the backing array has exactly `tableSize`
slots, `size` counts the occupied slots, no two occupied slots match
each other's keys, and every occupied slot lies inside the probe window
of its own key. -/
def Valid (t : Hashmap) : Prop :=
  t.tableSize ≠ 0 ∧
  t.tableSize &&& (t.tableSize - 1) = 0 ∧
  t.tableSize < U32 ∧
  t.data.length = t.tableSize ∧
  t.size = t.data.countP (fun e => e.used) ∧
  (∀ i < t.data.length, ∀ j < t.data.length, i ≠ j →
    (slotD t i).used = true → (slotD t j).used = true →
    hashmapCheckIfMatch (slotD t i) (slotD t j).key (slotD t j).keyLen = false) ∧
  (∀ i < t.data.length, (slotD t i).used = true →
    ∃ off < HASHMAP_MAX_CHAIN_LENGTH,
      i = (hashmapStringHasher t (slotD t i).key (slotD t i).keyLen + off) % t.tableSize)

instance (t : Hashmap) : Decidable (Valid t) := by
  unfold Valid
  infer_instance

/-- Behavioural contract of a `put` implementation, used to reason about
the re-insertion pass of `hashmapExpand`: the result is valid; on
success the key is present with the stored value, the count grows
exactly when the key was new, and all other keys are untouched. -/
def PutSpec (put : Hashmap → List Nat → Nat → Nat → Int × Hashmap) : Prop :=
  ∀ t key len v, Valid t →
    Valid (put t key len v).2 ∧
    ((put t key len v).1 = 0 →
      containsKey (put t key len v).2 key len = true ∧
      hashmapGet (put t key len v).2 key len = some v ∧
      (put t key len v).2.size = t.size + (if containsKey t key len then 0 else 1) ∧
      (∀ key2 len2, kMatch key len key2 len2 = false →
        containsKey (put t key len v).2 key2 len2 = containsKey t key2 len2))

/-- Tables obtainable from a successful `hashmapCreate` through any
sequence of `hashmapPut`, `hashmapRemove`, `hashmapApplyIterator` and
`hashmapExpand` calls, successful or failed (the capacity argument of
`create` is a C `unsigned`, hence below `2 ^ 32`). -/
inductive Reachable : Hashmap → Prop where
  | create (alloc : Nat → Bool) (n : Nat) (out : Hashmap) (hn : n < U32)
      (h : (hashmapCreate alloc n out).1 = 0) : Reachable (hashmapCreate alloc n out).2
  | put (alloc : Nat → Bool) (fuel : Nat) (t : Hashmap) (key : List Nat) (len v : Nat)
      (ht : Reachable t) : Reachable (hashmapPut alloc fuel t key len v).2
  | remove (t : Hashmap) (key : List Nat) (len : Nat) (ht : Reachable t) :
      Reachable (hashmapRemove t key len).2
  | applyIterator {σ : Type} (t : Hashmap) (f : σ → HashmapElement → Int × σ) (c : σ)
      (ht : Reachable t) : Reachable (hashmapApplyIterator t f c).2.1
  | expand (alloc : Nat → Bool) (fuel : Nat) (t : Hashmap) (ht : Reachable t) :
      Reachable (hashmapExpand alloc fuel t).2

/-- A table created with capacity 8, used as a concrete test instance. -/
def t8 : Hashmap := (hashmapCreate allocAll 8 ⟨0, 0, []⟩).2

/-- A small populated table (capacity 4, two entries), used as a
concrete test instance.  Any table with capacity at most 8 satisfies
the probe-window invariant trivially, since an 8-step window covers
every bucket. -/
def tW : Hashmap :=
  ⟨4, 2, [⟨[5], 1, true, 10⟩, emptyElement, ⟨[7], 1, true, 20⟩, emptyElement]⟩

/-- A table holding one entry two steps past its hash start index, with
the intervening probe-chain slots unoccupied (the byte key `[9]` hashes
to bucket 0 of 4).  Used to exhibit that `get`/`remove` do not stop
early at unoccupied slots. -/
def tW9 : Hashmap :=
  ⟨4, 1, [emptyElement, emptyElement, ⟨[9], 1, true, 42⟩, emptyElement]⟩

/-- A second table with the same capacity as `tW` but different count
and contents, used to exhibit that the hash depends on nothing else. -/
def tX : Hashmap := ⟨4, 0, []⟩

/-- The slots of the concrete table used to refute the expansion-abort
claim: capacity 32, sixteen single-byte keys.  Their mixed CRC32 hashes
were chosen so that, during rehash into capacity 64, the first fifteen
entries (buckets 0-30) re-insert successfully and fill the entire
probe window of the final key `[153]` (bucket 31, hash 28 modulo 64,
window 28..35), which therefore triggers a nested growth to capacity
128. -/
def ceOldData : List HashmapElement := [
    ⟨[9], 1, true, 1⟩,
    ⟨[67], 1, true, 2⟩,
    ⟨[54], 1, true, 3⟩,
    ⟨[238], 1, true, 4⟩,
    ⟨[32], 1, true, 5⟩,
    emptyElement, emptyElement, emptyElement, emptyElement, emptyElement,
    emptyElement, emptyElement, emptyElement, emptyElement, emptyElement,
    emptyElement, emptyElement, emptyElement, emptyElement, emptyElement,
    emptyElement,
    ⟨[34], 1, true, 6⟩,
    ⟨[2], 1, true, 7⟩,
    ⟨[65], 1, true, 8⟩,
    ⟨[127], 1, true, 9⟩,
    ⟨[29], 1, true, 10⟩,
    ⟨[42], 1, true, 11⟩,
    ⟨[12], 1, true, 12⟩,
    ⟨[150], 1, true, 13⟩,
    ⟨[97], 1, true, 14⟩,
    ⟨[10], 1, true, 15⟩,
    ⟨[153], 1, true, 16⟩]

/-- The concrete pre-expansion table of the refutation. -/
def ceOld : Hashmap := ⟨32, 16, ceOldData⟩

/-- An allocator that can serve the 64-slot table but fails on the
128-slot one requested by the nested growth. -/
def ceAlloc : Nat → Bool := fun n => n < 128


/-! ## Byte-comparison lemmas -/

theorem bytesEq_iff {a b : List Nat} {len : Nat} :
    bytesEq a b len = true ↔ ∀ i < len, a.getD i 0 = b.getD i 0 := by
  simp only [bytesEq, List.all_eq_true, List.mem_range, beq_iff_eq]

theorem bytesEq_refl (a : List Nat) (len : Nat) : bytesEq a a len = true :=
  bytesEq_iff.2 fun _ _ => rfl

theorem bytesEq_symm {a b : List Nat} {len : Nat} (h : bytesEq a b len = true) :
    bytesEq b a len = true :=
  bytesEq_iff.2 fun i hi => (bytesEq_iff.1 h i hi).symm

theorem bytesEq_trans {a b c : List Nat} {len : Nat} (h1 : bytesEq a b len = true)
    (h2 : bytesEq b c len = true) : bytesEq a c len = true :=
  bytesEq_iff.2 fun i hi => (bytesEq_iff.1 h1 i hi).trans (bytesEq_iff.1 h2 i hi)

theorem checkIfMatch_iff {e : HashmapElement} {key : List Nat} {len : Nat} :
    hashmapCheckIfMatch e key len = true ↔ e.keyLen = len ∧ bytesEq e.key key len = true := by
  simp [hashmapCheckIfMatch]

/-- Self-match: every slot matches its own key and length. -/
theorem checkIfMatch_self (e : HashmapElement) :
    hashmapCheckIfMatch e e.key e.keyLen = true :=
  checkIfMatch_iff.2 ⟨rfl, bytesEq_refl _ _⟩

/-- Two slots matching the same `(key, len)` match each other's keys. -/
theorem checkIfMatch_trans {e e' : HashmapElement} {key : List Nat} {len : Nat}
    (h : hashmapCheckIfMatch e key len = true)
    (h' : hashmapCheckIfMatch e' key len = true) :
    hashmapCheckIfMatch e e'.key e'.keyLen = true := by
  obtain ⟨hl, hb⟩ := checkIfMatch_iff.1 h
  obtain ⟨hl', hb'⟩ := checkIfMatch_iff.1 h'
  exact checkIfMatch_iff.2 ⟨hl.trans hl'.symm, hl' ▸ bytesEq_trans hb (bytesEq_symm hb')⟩

/-! ## Hash-function lemmas -/

theorem foldl_congr_of_mem {α β : Type} {l : List β} {f g : α → β → α} :
    ∀ {a : α}, (∀ x, ∀ i ∈ l, f x i = g x i) → l.foldl f a = l.foldl g a := by
  induction l with
  | nil => intro a _; rfl
  | cons b bs ih =>
    intro a h
    simp only [List.foldl_cons]
    rw [h a b (List.mem_cons_self b bs)]
    exact ih fun x i hi => h x i (List.mem_cons_of_mem b hi)

theorem hashmapCRC32_congr {s s' : List Nat} {len : Nat}
    (h : ∀ i < len, s.getD i 0 = s'.getD i 0) : hashmapCRC32 s len = hashmapCRC32 s' len := by
  unfold hashmapCRC32
  exact foldl_congr_of_mem fun x i hi => by rw [h i (List.mem_range.1 hi)]

/-- The hash depends only on the key bytes, the length, and the table
size. -/
theorem hashmapStringHasher_congr {t t' : Hashmap} {key key' : List Nat} {len : Nat}
    (hts : t.tableSize = t'.tableSize) (hb : ∀ i < len, key.getD i 0 = key'.getD i 0) :
    hashmapStringHasher t key len = hashmapStringHasher t' key' len := by
  unfold hashmapStringHasher
  rw [hashmapCRC32_congr hb, hts]

theorem hashmapStringHasher_lt (t : Hashmap) (key : List Nat) (len : Nat)
    (h : 0 < t.tableSize) : hashmapStringHasher t key len < t.tableSize :=
  Nat.mod_lt _ h

/-- Keys that match the same slot hash identically: matching fixes the
length and the first `len` bytes, which are all the hash reads. -/
theorem hasher_eq_of_match {t : Hashmap} {e : HashmapElement} {key : List Nat} {len : Nat}
    (h : hashmapCheckIfMatch e key len = true) :
    hashmapStringHasher t e.key e.keyLen = hashmapStringHasher t key len := by
  obtain ⟨hl, hb⟩ := checkIfMatch_iff.1 h
  subst hl
  exact hashmapStringHasher_congr rfl (bytesEq_iff.1 hb)

/-! ## Probe-window lemmas -/

theorem probeWindow_length (t : Hashmap) : ∀ n curr, (probeWindow t curr n).length = n := by
  intro n
  induction n with
  | zero => intro curr; rfl
  | succ n ih => intro curr; simp [probeWindow, ih]

theorem probeWindow_eq_map (t : Hashmap) (h : 0 < t.tableSize) :
    ∀ n curr, curr < t.tableSize →
      probeWindow t curr n = (List.range n).map fun off => (curr + off) % t.tableSize := by
  intro n
  induction n with
  | zero => intro curr _; rfl
  | succ n ih =>
    intro curr hc
    rw [probeWindow, List.range_succ_eq_map, List.map_cons]
    have h0 : (curr + 0) % t.tableSize = curr := by
      simpa using Nat.mod_eq_of_lt hc
    rw [h0, ih ((curr + 1) % t.tableSize) (Nat.mod_lt _ h), List.map_map]
    congr 1
    apply List.map_congr_left
    intro off _
    simp only [Function.comp_apply, Nat.succ_eq_add_one]
    rw [Nat.mod_add_mod]
    congr 1
    omega

theorem mem_probeWindow {t : Hashmap} {j curr n : Nat} (h : 0 < t.tableSize)
    (hc : curr < t.tableSize) :
    j ∈ probeWindow t curr n ↔ ∃ off < n, j = (curr + off) % t.tableSize := by
  rw [probeWindow_eq_map t h n curr hc]
  simp only [List.mem_map, List.mem_range]
  constructor
  · rintro ⟨off, hoff, rfl⟩; exact ⟨off, hoff, rfl⟩
  · rintro ⟨off, hoff, rfl⟩; exact ⟨off, hoff, rfl⟩

/-- `find?` returns the element when it is the unique satisfier. -/
theorem find?_eq_some_of_unique {α : Type} {p : α → Bool} {l : List α} {a : α}
    (ha : a ∈ l) (hpa : p a = true) (huniq : ∀ b ∈ l, p b = true → b = a) :
    l.find? p = some a := by
  induction l with
  | nil => cases ha
  | cons b bs ih =>
    by_cases hb : p b = true
    · rw [List.find?_cons_of_pos _ hb]
      exact congrArg some (huniq b (List.mem_cons_self b bs) hb)
    · rw [List.find?_cons_of_neg _ (by simpa using hb)]
      rcases List.mem_cons.1 ha with rfl | ha'
      · exact absurd hpa hb
      · exact ih ha' fun c hc hpc => huniq c (List.mem_cons_of_mem b hc) hpc

/-! ## Loop characterizations: each C `for` loop is a `find?` over its
probe window. -/

theorem hashmapGetLoop_eq (t : Hashmap) (key : List Nat) (len : Nat) :
    ∀ n curr,
      hashmapGetLoop t key len curr n =
        ((probeWindow t curr n).find? (isMatchAt t key len)).map fun j => (slotD t j).data := by
  intro n
  induction n with
  | zero => intro curr; rfl
  | succ n ih =>
    intro curr
    by_cases h : ((slotD t curr).used && hashmapCheckIfMatch (slotD t curr) key len) = true
    · simp only [hashmapGetLoop, probeWindow, h, if_true,
        List.find?_cons_of_pos _ (show isMatchAt t key len curr = true from h), Option.map_some']
    · simp only [hashmapGetLoop, probeWindow, h, if_false, Bool.false_eq_true,
        List.find?_cons_of_neg _ (show ¬ isMatchAt t key len curr = true from h), ih]

theorem hashmapRemoveLoop_eq (t : Hashmap) (key : List Nat) (len : Nat) :
    ∀ n curr,
      hashmapRemoveLoop t key len curr n =
        match (probeWindow t curr n).find? (isMatchAt t key len) with
        | some j => (0, clearSlot t j)
        | none => (1, t) := by
  intro n
  induction n with
  | zero => intro curr; rfl
  | succ n ih =>
    intro curr
    by_cases h : ((slotD t curr).used && hashmapCheckIfMatch (slotD t curr) key len) = true
    · simp only [hashmapRemoveLoop, probeWindow, h, if_true,
        List.find?_cons_of_pos _ (show isMatchAt t key len curr = true from h)]
    · simp only [hashmapRemoveLoop, probeWindow, h, if_false, Bool.false_eq_true,
        List.find?_cons_of_neg _ (show ¬ isMatchAt t key len curr = true from h), ih]

theorem hashmapProbeMatch_fst (t : Hashmap) (key : List Nat) (len : Nat) :
    ∀ n curr tu,
      (hashmapProbeMatch t key len curr tu n).1 =
        (probeWindow t curr n).find? (isMatchAt t key len) := by
  intro n
  induction n with
  | zero => intro curr tu; rfl
  | succ n ih =>
    intro curr tu
    by_cases h : ((slotD t curr).used && hashmapCheckIfMatch (slotD t curr) key len) = true
    · simp only [hashmapProbeMatch, probeWindow, h, if_true,
        List.find?_cons_of_pos _ (show isMatchAt t key len curr = true from h)]
    · simp only [hashmapProbeMatch, probeWindow, h, if_false, Bool.false_eq_true,
        List.find?_cons_of_neg _ (show ¬ isMatchAt t key len curr = true from h), ih]

theorem hashmapProbeMatch_snd (t : Hashmap) (key : List Nat) (len : Nat) :
    ∀ n curr tu,
      (probeWindow t curr n).find? (isMatchAt t key len) = none →
      (hashmapProbeMatch t key len curr tu n).2 =
        tu + (probeWindow t curr n).countP fun j => (slotD t j).used := by
  intro n
  induction n with
  | zero => intro curr tu _; simp [hashmapProbeMatch, probeWindow]
  | succ n ih =>
    intro curr tu hnone
    have hcurr : isMatchAt t key len curr = false := by
      by_contra hcm
      rw [probeWindow, List.find?_cons_of_pos _ (by simpa using hcm)] at hnone
      cases hnone
    rw [probeWindow, List.find?_cons_of_neg _ (by simp [hcurr])] at hnone
    have h : ((slotD t curr).used && hashmapCheckIfMatch (slotD t curr) key len) = false := hcurr
    simp only [hashmapProbeMatch, probeWindow, h, if_false, Bool.false_eq_true,
      List.countP_cons]
    rw [ih _ _ hnone]
    by_cases hu : (slotD t curr).used = true
    · simp only [hu, if_true]
      omega
    · simp only [hu, if_false, Bool.false_eq_true]
      omega

theorem hashmapProbeFree_eq (t : Hashmap) :
    ∀ n curr,
      hashmapProbeFree t curr n =
        (probeWindow t curr n).find? fun j => !(slotD t j).used := by
  intro n
  induction n with
  | zero => intro curr; rfl
  | succ n ih =>
    intro curr
    by_cases h : (slotD t curr).used = true
    · rw [probeWindow, List.find?_cons_of_neg (p := fun j => !(slotD t j).used) _ (by simp [h])]
      simp only [hashmapProbeFree, h, Bool.not_true, if_false, Bool.false_eq_true]
      exact ih _
    · rw [probeWindow, List.find?_cons_of_pos (p := fun j => !(slotD t j).used) _ (by simp [h])]
      simp only [hashmapProbeFree, h, Bool.not_false, if_true]

/-- Full characterization of `hashmapGetBucket` below capacity: the
first pass is a `find?` for a matching slot over the probe window, the
second pass a `find?` for a free slot, attempted only when the window is
not fully occupied. -/
theorem hashmapGetBucket_eq (t : Hashmap) (key : List Nat) (len : Nat)
    (h : t.size < t.tableSize) :
    hashmapGetBucket t key len =
      match (bucketWindow t key len).find? (isMatchAt t key len) with
      | some j => some j
      | none =>
        if (bucketWindow t key len).all (fun j => (slotD t j).used) then none
        else (bucketWindow t key len).find? fun j => !(slotD t j).used := by
  have hlt : ¬ (t.tableSize ≤ t.size) := by omega
  rcases hm : hashmapProbeMatch t key len (hashmapStringHasher t key len) 0
      HASHMAP_MAX_CHAIN_LENGTH with ⟨found, tu⟩
  have h1 : found = (bucketWindow t key len).find? (isMatchAt t key len) := by
    have := hashmapProbeMatch_fst t key len HASHMAP_MAX_CHAIN_LENGTH
      (hashmapStringHasher t key len) 0
    rw [hm] at this
    exact this
  rcases found with _ | j
  · have h2 : tu = (bucketWindow t key len).countP fun j => (slotD t j).used := by
      have := hashmapProbeMatch_snd t key len HASHMAP_MAX_CHAIN_LENGTH
        (hashmapStringHasher t key len) 0 h1.symm
      rw [hm] at this
      simpa using this
    simp only [hashmapGetBucket, hlt, if_false, hm, ← h1]
    rw [hashmapProbeFree_eq]
    by_cases hall : (bucketWindow t key len).all (fun j => (slotD t j).used) = true
    · have hcount : tu = HASHMAP_MAX_CHAIN_LENGTH := by
        rw [h2]
        have := List.countP_eq_length.2 (List.all_eq_true.1 hall)
        rw [this, bucketWindow, probeWindow_length]
      rw [if_neg (by omega), if_pos hall]
    · have hle : tu ≤ HASHMAP_MAX_CHAIN_LENGTH := by
        rw [h2]
        have := List.countP_le_length (fun j => (slotD t j).used)
          (l := bucketWindow t key len)
        rwa [bucketWindow, probeWindow_length] at this
      have hne : tu ≠ HASHMAP_MAX_CHAIN_LENGTH := by
        intro he
        apply hall
        apply List.all_eq_true.2
        apply List.countP_eq_length.1
        rw [← h2, he, bucketWindow, probeWindow_length]
      rw [if_pos (by omega), if_neg hall]
      rfl
  · simp only [hashmapGetBucket, hlt, if_false, hm, ← h1]

/-! ## List index helpers -/

theorem getD_set_self {α : Type} (l : List α) (i : Nat) (a d : α) (h : i < l.length) :
    (l.set i a).getD i d = a := by
  simp [List.getD, List.getElem?_set, h]

theorem getD_set_ne {α : Type} (l : List α) (i j : Nat) (a d : α) (h : i ≠ j) :
    (l.set i a).getD j d = l.getD j d := by
  simp [List.getD, List.getElem?_set_ne h]

theorem getD_eq_getElem {α : Type} (l : List α) (d : α) {i : Nat} (h : i < l.length) :
    l.getD i d = l[i] := by
  simp [List.getD, List.getElem?_eq_getElem h]

theorem getD_eq_default {α : Type} (l : List α) (d : α) {i : Nat} (h : l.length ≤ i) :
    l.getD i d = d := by
  simp [List.getD, List.getElem?_eq_none h]

theorem getD_mem {α : Type} (l : List α) (d : α) {i : Nat} (h : i < l.length) :
    l.getD i d ∈ l := by
  rw [getD_eq_getElem l d h]
  exact List.getElem_mem h

/-- Replacing one entry shifts `countP` by the difference of the two
indicator values (stated without subtraction). -/
theorem countP_set_add {α : Type} (p : α → Bool) :
    ∀ (l : List α) (i : Nat) (a d : α), i < l.length →
      (l.set i a).countP p + (if p (l.getD i d) then 1 else 0) =
        l.countP p + (if p a then 1 else 0) := by
  intro l
  induction l with
  | nil => intro i a d h; cases h
  | cons b bs ih =>
    intro i a d h
    cases i with
    | zero =>
      simp only [List.set_cons_zero, List.countP_cons, List.getD_cons_zero]
      omega
    | succ i =>
      simp only [List.set_cons_succ, List.countP_cons, List.getD_cons_succ]
      have := ih i a d (by simpa using h)
      omega

/-- Specialization of `countP_set_add` to the occupied-slot count. -/
theorem countP_used_set {t : Hashmap} {i : Nat} {e : HashmapElement}
    (hi : i < t.data.length) :
    (t.data.set i e).countP (fun x => x.used) + (if (slotD t i).used then 1 else 0) =
      t.data.countP (fun x => x.used) + (if e.used then 1 else 0) :=
  countP_set_add (fun x => x.used) t.data i e emptyElement hi

/-- Elements of the list are exactly the in-range `slotD` reads. -/
theorem mem_data_iff_slotD {t : Hashmap} {e : HashmapElement} :
    e ∈ t.data ↔ ∃ i, ∃ _ : i < t.data.length, slotD t i = e := by
  rw [List.mem_iff_getElem]
  constructor
  · rintro ⟨i, hi, rfl⟩
    exact ⟨i, hi, getD_eq_getElem _ _ hi⟩
  · rintro ⟨i, hi, rfl⟩
    exact ⟨i, hi, (getD_eq_getElem _ _ hi).symm⟩

/-! ## The well-formedness invariant -/

theorem Valid.ts_pos {t : Hashmap} (h : Valid t) : 0 < t.tableSize :=
  Nat.pos_of_ne_zero h.1

theorem Valid.size_le {t : Hashmap} (h : Valid t) : t.size ≤ t.tableSize := by
  obtain ⟨-, -, -, hlen, hsize, -, -⟩ := h
  rw [hsize, ← hlen]
  exact List.countP_le_length _

/-! ## Matching-slot lemmas under the invariant -/

theorem isMatchAt_lt_length {t : Hashmap} {key : List Nat} {len j : Nat}
    (h : isMatchAt t key len j = true) : j < t.data.length := by
  by_contra hge
  have : slotD t j = emptyElement := getD_eq_default _ _ (by omega)
  rw [isMatchAt, this] at h
  simp [emptyElement] at h

theorem isMatchAt_of_not_contains {t : Hashmap} {key : List Nat} {len : Nat}
    (h : containsKey t key len = false) : ∀ j, isMatchAt t key len j = false := by
  intro j
  by_contra hj
  simp only [Bool.not_eq_false] at hj
  have hlt := isMatchAt_lt_length hj
  rw [containsKey, List.any_eq_false] at h
  exact h (slotD t j) (getD_mem _ _ hlt) (by simpa [isMatchAt] using hj)

theorem contains_of_isMatchAt {t : Hashmap} {key : List Nat} {len j : Nat}
    (h : isMatchAt t key len j = true) : containsKey t key len = true := by
  rw [containsKey, List.any_eq_true]
  exact ⟨slotD t j, getD_mem _ _ (isMatchAt_lt_length h), by simpa [isMatchAt] using h⟩

/-- Under the invariant at most one slot matches a given key. -/
theorem isMatchAt_unique {t : Hashmap} {key : List Nat} {len j j' : Nat} (hv : Valid t)
    (h : isMatchAt t key len j = true) (h' : isMatchAt t key len j' = true) : j = j' := by
  by_contra hne
  have hlj := isMatchAt_lt_length h
  have hlj' := isMatchAt_lt_length h'
  obtain ⟨-, -, -, -, -, hnodup, -⟩ := hv
  simp only [isMatchAt, Bool.and_eq_true] at h h'
  have hfalse := hnodup j hlj j' hlj' hne h.1 h'.1
  rw [checkIfMatch_trans h.2 h'.2] at hfalse
  cases hfalse

/-- Under the invariant a matching slot lies in the key's probe window. -/
theorem isMatchAt_in_window {t : Hashmap} {key : List Nat} {len j : Nat} (hv : Valid t)
    (h : isMatchAt t key len j = true) :
    ∃ off < HASHMAP_MAX_CHAIN_LENGTH,
      j = (hashmapStringHasher t key len + off) % t.tableSize := by
  have hlj := isMatchAt_lt_length h
  obtain ⟨-, -, -, -, -, -, hwin⟩ := hv
  simp only [isMatchAt, Bool.and_eq_true] at h
  obtain ⟨off, hoff, hj⟩ := hwin j hlj h.1
  exact ⟨off, hoff, by rwa [hasher_eq_of_match h.2] at hj⟩

theorem mem_bucketWindow_iff {t : Hashmap} {key : List Nat} {len j : Nat}
    (hts : 0 < t.tableSize) :
    j ∈ bucketWindow t key len ↔
      ∃ off < HASHMAP_MAX_CHAIN_LENGTH,
        j = (hashmapStringHasher t key len + off) % t.tableSize := by
  exact mem_probeWindow hts (hashmapStringHasher_lt t key len hts)

/-- With the invariant, "no match in the window" means "no match at
all". -/
theorem no_match_of_no_window_match {t : Hashmap} {key : List Nat} {len : Nat} (hv : Valid t)
    (h : ∀ j ∈ bucketWindow t key len, isMatchAt t key len j = false) :
    ∀ j, isMatchAt t key len j = false := by
  intro j
  by_contra hj
  simp only [Bool.not_eq_false] at hj
  have hmem : j ∈ bucketWindow t key len :=
    (mem_bucketWindow_iff hv.ts_pos).2 (isMatchAt_in_window hv hj)
  rw [h j hmem] at hj
  cases hj

/-! ## High-level characterizations of `get` and `remove` -/

theorem hashmapGet_eq_none {t : Hashmap} {key : List Nat} {len : Nat}
    (h : ∀ j, isMatchAt t key len j = false) : hashmapGet t key len = none := by
  have hnone : (probeWindow t (hashmapStringHasher t key len)
      HASHMAP_MAX_CHAIN_LENGTH).find? (isMatchAt t key len) = none :=
    List.find?_eq_none.2 fun x _ => by simp [h x]
  rw [hashmapGet, hashmapGetLoop_eq, hnone]
  rfl

theorem hashmapGet_eq_some {t : Hashmap} {key : List Nat} {len j : Nat} (hv : Valid t)
    (hj : isMatchAt t key len j = true) : hashmapGet t key len = some (slotD t j).data := by
  rw [hashmapGet, hashmapGetLoop_eq]
  have hfind : (probeWindow t (hashmapStringHasher t key len)
      HASHMAP_MAX_CHAIN_LENGTH).find? (isMatchAt t key len) = some j := by
    apply find?_eq_some_of_unique
    · exact (mem_bucketWindow_iff hv.ts_pos).2 (isMatchAt_in_window hv hj)
    · exact hj
    · intro b _ hb
      exact isMatchAt_unique hv hb hj
  rw [hfind]
  rfl

theorem hashmapRemove_eq_none {t : Hashmap} {key : List Nat} {len : Nat}
    (h : ∀ j, isMatchAt t key len j = false) : hashmapRemove t key len = (1, t) := by
  have hnone : (probeWindow t (hashmapStringHasher t key len)
      HASHMAP_MAX_CHAIN_LENGTH).find? (isMatchAt t key len) = none :=
    List.find?_eq_none.2 fun x _ => by simp [h x]
  rw [hashmapRemove, hashmapRemoveLoop_eq, hnone]

theorem hashmapRemove_eq_clear {t : Hashmap} {key : List Nat} {len j : Nat} (hv : Valid t)
    (hj : isMatchAt t key len j = true) : hashmapRemove t key len = (0, clearSlot t j) := by
  rw [hashmapRemove, hashmapRemoveLoop_eq]
  have hfind : (probeWindow t (hashmapStringHasher t key len)
      HASHMAP_MAX_CHAIN_LENGTH).find? (isMatchAt t key len) = some j := by
    apply find?_eq_some_of_unique
    · exact (mem_bucketWindow_iff hv.ts_pos).2 (isMatchAt_in_window hv hj)
    · exact hj
    · intro b _ hb
      exact isMatchAt_unique hv hb hj
  rw [hfind]

/-! ## `clearSlot` preserves the invariant -/

theorem clearSlot_tableSize (t : Hashmap) (i : Nat) :
    (clearSlot t i).tableSize = t.tableSize := rfl

theorem clearSlot_data_length (t : Hashmap) (i : Nat) :
    (clearSlot t i).data.length = t.data.length := List.length_set t.data i _

theorem slotD_clearSlot_self {t : Hashmap} {i : Nat} (h : i < t.data.length) :
    slotD (clearSlot t i) i = emptyElement :=
  getD_set_self t.data i _ _ h

theorem slotD_clearSlot_ne (t : Hashmap) {i j : Nat} (h : i ≠ j) :
    slotD (clearSlot t i) j = slotD t j :=
  getD_set_ne t.data i j _ _ h

theorem hasher_clearSlot (t : Hashmap) (i : Nat) (key : List Nat) (len : Nat) :
    hashmapStringHasher (clearSlot t i) key len = hashmapStringHasher t key len :=
  hashmapStringHasher_congr rfl fun _ _ => rfl

theorem clearSlot_valid {t : Hashmap} {i : Nat} (hv : Valid t) (hi : i < t.data.length)
    (hu : (slotD t i).used = true) :
    Valid (clearSlot t i) ∧ (clearSlot t i).size = t.size - 1 ∧ 1 ≤ t.size := by
  obtain ⟨hts0, hpow, htsU, hlen, hsize, hnodup, hwin⟩ := hv
  have hpos : 1 ≤ t.size := by
    rw [hsize]
    exact List.countP_pos_iff.2 ⟨slotD t i, getD_mem _ _ hi, hu⟩
  have hszle : t.size < U32 := by
    have : t.size ≤ t.tableSize := by
      rw [hsize, ← hlen]
      exact List.countP_le_length _
    omega
  have hcount : (clearSlot t i).data.countP (fun e => e.used) + 1 = t.data.countP (fun e => e.used) := by
    have h2 := countP_used_set (e := emptyElement) hi
    rw [hu, if_pos rfl, if_neg (by simp [emptyElement])] at h2
    simpa [clearSlot] using h2
  have hsize' : (clearSlot t i).size = t.size - 1 := by
    show (if t.size = 0 then 4294967295 else t.size - 1) = t.size - 1
    rw [if_neg (by omega)]
  refine ⟨⟨hts0, hpow, htsU, by rw [clearSlot_data_length, clearSlot_tableSize]; exact hlen,
    ?_, ?_, ?_⟩, hsize', hpos⟩
  · rw [hsize', ← Nat.add_right_cancel_iff (n := 1), hcount]
    rw [hsize]
    omega
  · intro a ha b hb hab hua hub
    rw [clearSlot_data_length] at ha hb
    rcases eq_or_ne i a with rfl | hia
    · rw [slotD_clearSlot_self hi] at hua
      simp [emptyElement] at hua
    · rcases eq_or_ne i b with rfl | hib
      · rw [slotD_clearSlot_self hi] at hub
        simp [emptyElement] at hub
      · rw [slotD_clearSlot_ne t hia] at hua ⊢
        rw [slotD_clearSlot_ne t hib] at hub ⊢
        exact hnodup a ha b hb hab hua hub
  · intro a ha hua
    rw [clearSlot_data_length] at ha
    rcases eq_or_ne i a with rfl | hia
    · rw [slotD_clearSlot_self hi] at hua
      simp [emptyElement] at hua
    · rw [slotD_clearSlot_ne t hia] at hua ⊢
      rw [hasher_clearSlot, clearSlot_tableSize]
      exact hwin a ha hua

/-! ## `putAt` (the slot-writing tail of `hashmapPut`) -/

theorem checkIfMatch_swap {e : HashmapElement} {key : List Nat} {len : Nat}
    {u : Bool} {d : Nat} :
    hashmapCheckIfMatch ⟨key, len, u, d⟩ e.key e.keyLen = true ↔
      hashmapCheckIfMatch e key len = true := by
  rw [checkIfMatch_iff, checkIfMatch_iff]
  show len = e.keyLen ∧ bytesEq key e.key e.keyLen = true ↔
    e.keyLen = len ∧ bytesEq e.key key len = true
  constructor
  · rintro ⟨hl, hb⟩
    refine ⟨hl.symm, ?_⟩
    have hb' := bytesEq_symm hb
    rwa [← hl] at hb'
  · rintro ⟨hl, hb⟩
    refine ⟨hl.symm, ?_⟩
    have hb' := bytesEq_symm hb
    rwa [← hl] at hb'

theorem checkIfMatch_mk_self (key : List Nat) (len : Nat) (u : Bool) (d : Nat) :
    hashmapCheckIfMatch ⟨key, len, u, d⟩ key len = true :=
  checkIfMatch_iff.2 ⟨rfl, bytesEq_refl _ _⟩

/-- Both branches of `putAt` write the same slot contents: the fields
rewritten plus `used := true` (in the occupied branch `used` was already
`true`). -/
theorem putAt_data_eq (t : Hashmap) (i : Nat) (key : List Nat) (len v : Nat) :
    (putAt t i key len v).data = t.data.set i ⟨key, len, true, v⟩ := by
  unfold putAt
  by_cases hu : (slotD t i).used = true
  · simp only [hu, if_true]
  · simp only [hu, Bool.false_eq_true, if_false]

theorem putAt_tableSize (t : Hashmap) (i : Nat) (key : List Nat) (len v : Nat) :
    (putAt t i key len v).tableSize = t.tableSize := by
  unfold putAt
  by_cases hu : (slotD t i).used = true <;> simp [hu]

theorem putAt_data_length (t : Hashmap) (i : Nat) (key : List Nat) (len v : Nat) :
    (putAt t i key len v).data.length = t.data.length := by
  rw [putAt_data_eq]
  exact List.length_set t.data i _

theorem hasher_putAt (t : Hashmap) (i : Nat) (key : List Nat) (len v : Nat)
    (k : List Nat) (l : Nat) :
    hashmapStringHasher (putAt t i key len v) k l = hashmapStringHasher t k l :=
  hashmapStringHasher_congr (by rw [putAt_tableSize]) fun _ _ => rfl

theorem slotD_putAt_self {t : Hashmap} {i : Nat} (key : List Nat) (len v : Nat)
    (hi : i < t.data.length) :
    slotD (putAt t i key len v) i = ⟨key, len, true, v⟩ := by
  unfold slotD
  rw [putAt_data_eq]
  exact getD_set_self t.data i _ _ hi

theorem slotD_putAt_ne (t : Hashmap) {i j : Nat} (key : List Nat) (len v : Nat)
    (h : i ≠ j) : slotD (putAt t i key len v) j = slotD t j := by
  unfold slotD
  rw [putAt_data_eq]
  exact getD_set_ne t.data i j _ _ h

theorem putAt_size_used {t : Hashmap} {i : Nat} (key : List Nat) (len v : Nat)
    (hu : (slotD t i).used = true) : (putAt t i key len v).size = t.size := by
  simp [putAt, hu]

theorem putAt_size_free {t : Hashmap} {i : Nat} (key : List Nat) (len v : Nat)
    (hu : (slotD t i).used = false) (hlt : t.size + 1 < U32) :
    (putAt t i key len v).size = t.size + 1 := by
  simp only [putAt, hu, Bool.false_eq_true, if_false]
  exact Nat.mod_eq_of_lt hlt

theorem putAt_countP (t : Hashmap) (i : Nat) (key : List Nat) (len v : Nat)
    (hi : i < t.data.length) :
    (putAt t i key len v).data.countP (fun x => x.used) +
        (if (slotD t i).used then 1 else 0) =
      t.data.countP (fun x => x.used) + 1 := by
  rw [putAt_data_eq]
  have h3 := countP_used_set (e := (⟨key, len, true, v⟩ : HashmapElement)) hi
  have hfld : ((⟨key, len, true, v⟩ : HashmapElement)).used = true := rfl
  rw [hfld, if_pos rfl] at h3
  omega

/-- Overwriting the unique matching slot preserves the invariant and the
occupied count; the slot then holds exactly the new key, length and
value. -/
theorem putAt_valid_overwrite {t : Hashmap} {i : Nat} {key : List Nat} {len v : Nat}
    (hv : Valid t) (hm : isMatchAt t key len i = true) :
    Valid (putAt t i key len v) ∧ (putAt t i key len v).size = t.size ∧
      slotD (putAt t i key len v) i = ⟨key, len, true, v⟩ ∧
      (∀ j, j ≠ i → slotD (putAt t i key len v) j = slotD t j) := by
  have hi : i < t.data.length := isMatchAt_lt_length hm
  have hu : (slotD t i).used = true := by
    simp only [isMatchAt, Bool.and_eq_true] at hm
    exact hm.1
  have hself := slotD_putAt_self (t := t) key len v hi
  have hne : ∀ j, j ≠ i → slotD (putAt t i key len v) j = slotD t j :=
    fun j hj => slotD_putAt_ne t key len v (Ne.symm hj)
  have hsz := putAt_size_used (t := t) (i := i) key len v hu
  have hwindow := isMatchAt_in_window hv hm
  have hc := putAt_countP t i key len v hi
  rw [hu, if_pos rfl] at hc
  obtain ⟨hts0, hpow, htsU, hlen, hsize, hnodup, hwin⟩ := hv
  refine ⟨⟨?_, ?_, ?_, ?_, ?_, ?_, ?_⟩, hsz, hself, hne⟩
  · rwa [putAt_tableSize]
  · rwa [putAt_tableSize]
  · rwa [putAt_tableSize]
  · rw [putAt_data_length, putAt_tableSize]
    exact hlen
  · rw [hsz, hsize]
    omega
  · intro a ha b hb hab hua hub
    rw [putAt_data_length] at ha hb
    rcases eq_or_ne a i with rfl | hai
    · rw [hself] at hua ⊢
      rw [hne b (by omega)] at hub ⊢
      by_contra hcontra
      simp only [Bool.not_eq_false] at hcontra
      have hmb : isMatchAt t key len b = true := by
        simp [isMatchAt, hub, checkIfMatch_swap.1 hcontra]
      exact absurd (isMatchAt_unique ⟨hts0, hpow, htsU, hlen, hsize, hnodup, hwin⟩
        hmb hm) (by omega)
    · rcases eq_or_ne b i with rfl | hbi
      · rw [hself] at hub ⊢
        rw [hne a hai] at hua ⊢
        show hashmapCheckIfMatch (slotD t a) key len = false
        by_contra hcontra
        simp only [Bool.not_eq_false] at hcontra
        have hma : isMatchAt t key len a = true := by simp [isMatchAt, hua, hcontra]
        exact absurd (isMatchAt_unique ⟨hts0, hpow, htsU, hlen, hsize, hnodup, hwin⟩
          hma hm) hai
      · rw [hne a hai] at hua ⊢
        rw [hne b hbi] at hub ⊢
        exact hnodup a ha b hb hab hua hub
  · intro a ha hua
    rw [putAt_data_length] at ha
    rcases eq_or_ne a i with rfl | hai
    · rw [hself]
      obtain ⟨off, hoff, hoffeq⟩ := hwindow
      refine ⟨off, hoff, ?_⟩
      rw [putAt_tableSize]
      show a = (hashmapStringHasher (putAt t a key len v) key len + off) % t.tableSize
      rwa [hasher_putAt]
    · rw [hne a hai] at hua ⊢
      rw [hasher_putAt, putAt_tableSize]
      exact hwin a ha hua

/-- Inserting into a free slot inside the key's window, when no slot
matches the key, preserves the invariant and bumps the count. -/
theorem putAt_valid_insert {t : Hashmap} {i : Nat} {key : List Nat} {len v : Nat}
    (hv : Valid t) (hi : i < t.data.length) (hfree : (slotD t i).used = false)
    (hnom : ∀ j, isMatchAt t key len j = false)
    (hwin : ∃ off < HASHMAP_MAX_CHAIN_LENGTH,
      i = (hashmapStringHasher t key len + off) % t.tableSize)
    (hsz : t.size < t.tableSize) :
    Valid (putAt t i key len v) ∧ (putAt t i key len v).size = t.size + 1 ∧
      slotD (putAt t i key len v) i = ⟨key, len, true, v⟩ ∧
      (∀ j, j ≠ i → slotD (putAt t i key len v) j = slotD t j) := by
  have hself := slotD_putAt_self (t := t) key len v hi
  have hne : ∀ j, j ≠ i → slotD (putAt t i key len v) j = slotD t j :=
    fun j hj => slotD_putAt_ne t key len v (Ne.symm hj)
  have hc := putAt_countP t i key len v hi
  rw [hfree] at hc
  simp only [Bool.false_eq_true, if_false] at hc
  obtain ⟨hts0, hpow, htsU, hlen, hsize, hnodup, hwin'⟩ := hv
  have hszU : t.size + 1 < U32 := by omega
  have hsz' := putAt_size_free (t := t) (i := i) key len v hfree hszU
  refine ⟨⟨?_, ?_, ?_, ?_, ?_, ?_, ?_⟩, hsz', hself, hne⟩
  · rwa [putAt_tableSize]
  · rwa [putAt_tableSize]
  · rwa [putAt_tableSize]
  · rw [putAt_data_length, putAt_tableSize]
    exact hlen
  · rw [hsz', hsize]
    omega
  · intro a ha b hb hab hua hub
    rw [putAt_data_length] at ha hb
    rcases eq_or_ne a i with rfl | hai
    · rw [hself] at hua ⊢
      rw [hne b (by omega)] at hub ⊢
      by_contra hcontra
      simp only [Bool.not_eq_false] at hcontra
      have hmb : isMatchAt t key len b = true := by
        simp [isMatchAt, hub, checkIfMatch_swap.1 hcontra]
      rw [hnom b] at hmb
      cases hmb
    · rcases eq_or_ne b i with rfl | hbi
      · rw [hself] at hub ⊢
        rw [hne a hai] at hua ⊢
        show hashmapCheckIfMatch (slotD t a) key len = false
        by_contra hcontra
        simp only [Bool.not_eq_false] at hcontra
        have hma : isMatchAt t key len a = true := by simp [isMatchAt, hua, hcontra]
        rw [hnom a] at hma
        cases hma
      · rw [hne a hai] at hua ⊢
        rw [hne b hbi] at hub ⊢
        exact hnodup a ha b hb hab hua hub
  · intro a ha hua
    rw [putAt_data_length] at ha
    rcases eq_or_ne a i with rfl | hai
    · rw [hself]
      obtain ⟨off, hoff, hoffeq⟩ := hwin
      refine ⟨off, hoff, ?_⟩
      rw [putAt_tableSize]
      show a = (hashmapStringHasher (putAt t a key len v) key len + off) % t.tableSize
      rwa [hasher_putAt]
    · rw [hne a hai] at hua ⊢
      rw [hasher_putAt, putAt_tableSize]
      exact hwin' a ha hua

/-! ## Case analysis of `hashmapGetBucket` -/

theorem hashmapGetBucket_none_of_full {t : Hashmap} (key : List Nat) (len : Nat)
    (h : t.tableSize ≤ t.size) : hashmapGetBucket t key len = none := by
  rw [hashmapGetBucket, if_pos h]

/-- A successful bucket lookup happens below capacity, lands in the probe
window, and is either the (unique) matching slot or a free slot found
after a first pass that saw no match anywhere in the window. -/
theorem hashmapGetBucket_some_spec {t : Hashmap} {key : List Nat} {len i : Nat}
    (h : hashmapGetBucket t key len = some i) :
    t.size < t.tableSize ∧
    (∃ off < HASHMAP_MAX_CHAIN_LENGTH,
      i = (hashmapStringHasher t key len + off) % t.tableSize) ∧
    (isMatchAt t key len i = true ∨
      ((slotD t i).used = false ∧
        ∀ j ∈ bucketWindow t key len, isMatchAt t key len j = false)) := by
  have hlt : t.size < t.tableSize := by
    by_contra hge
    rw [hashmapGetBucket_none_of_full key len (by omega)] at h
    cases h
  have hts : 0 < t.tableSize := by omega
  rw [hashmapGetBucket_eq t key len hlt] at h
  rcases hf : (bucketWindow t key len).find? (isMatchAt t key len) with _ | j
  · rw [hf] at h
    by_cases hall : (bucketWindow t key len).all (fun j => (slotD t j).used) = true
    · rw [if_pos hall] at h
      cases h
    · rw [if_neg hall] at h
      have hpi := List.find?_some h
      have hmem := List.mem_of_find?_eq_some h
      refine ⟨hlt, (mem_bucketWindow_iff hts).1 hmem, Or.inr ⟨by simpa using hpi, ?_⟩⟩
      intro j hj
      have := List.find?_eq_none.1 hf j hj
      simpa using this
  · rw [hf] at h
    have hji : j = i := by
      cases h
      rfl
    subst hji
    exact ⟨hlt, (mem_bucketWindow_iff hts).1 (List.mem_of_find?_eq_some hf),
      Or.inl (List.find?_some hf)⟩

/-! ## The iteration engine -/

theorem used_lt_length {t : Hashmap} {i : Nat} (h : (slotD t i).used = true) :
    i < t.data.length := by
  by_contra hge
  have he : slotD t i = emptyElement := getD_eq_default _ _ (by omega)
  rw [he] at h
  simp [emptyElement] at h

theorem map_getD_range {α : Type} (l : List α) (d : α) :
    (List.range l.length).map (fun i => l.getD i d) = l := by
  induction l with
  | nil => rfl
  | cons a as ih =>
    rw [List.length_cons, List.range_succ_eq_map, List.map_cons, List.map_map]
    simp only [List.getD_cons_zero, Function.comp_def, Nat.succ_eq_add_one,
      List.getD_cons_succ]
    rw [show (fun i => as.getD i d) = fun i => as.getD i d from rfl] at ih
    rw [show (List.map (fun x => as.getD x d) (List.range as.length)) =
      (List.range as.length).map (fun i => as.getD i d) from rfl, ih]

/-- Every table mutation the iteration engine performs keeps the table
valid, keeps its capacity, never grows the count, and leaves every slot
either unchanged or zeroed. -/
theorem applyIterAux_preserves {σ : Type} (f : σ → HashmapElement → Int × σ) :
    ∀ (is : List Nat) (t : Hashmap) (c : σ), Valid t →
      Valid (hashmapApplyIteratorAux f is t c).2.1 ∧
      (hashmapApplyIteratorAux f is t c).2.1.tableSize = t.tableSize ∧
      (hashmapApplyIteratorAux f is t c).2.1.size ≤ t.size ∧
      (∀ j, slotD (hashmapApplyIteratorAux f is t c).2.1 j = slotD t j ∨
            slotD (hashmapApplyIteratorAux f is t c).2.1 j = emptyElement) := by
  intro is
  induction is with
  | nil => intro t c hv; exact ⟨hv, rfl, Nat.le_refl _, fun j => Or.inl rfl⟩
  | cons i is ih =>
    intro t c hv
    by_cases hu : (slotD t i).used = true
    · simp only [hashmapApplyIteratorAux, hu, if_true]
      by_cases hr1 : (f c (slotD t i)).1 = -1
      · simp only [hr1, if_true]
        have hi : i < t.data.length := used_lt_length hu
        obtain ⟨hv', hsz', hpos⟩ := clearSlot_valid hv hi hu
        obtain ⟨ihv, ihts, ihsz, ihslot⟩ := ih (clearSlot t i) (f c (slotD t i)).2 hv'
        refine ⟨ihv, by rw [ihts, clearSlot_tableSize], by rw [hsz'] at ihsz; omega, ?_⟩
        intro j
        rcases ihslot j with hj | hj
        · rcases eq_or_ne i j with rfl | hij
          · rw [hj, slotD_clearSlot_self hi]
            exact Or.inr rfl
          · rw [hj, slotD_clearSlot_ne t hij]
            exact Or.inl rfl
        · exact Or.inr hj
      · by_cases hr0 : (f c (slotD t i)).1 = 0
        · simp only [hr1, hr0, if_true, if_false]
          exact ih t (f c (slotD t i)).2 hv
        · rw [if_neg hr1, if_neg hr0]
          exact ⟨hv, rfl, Nat.le_refl _, fun j => Or.inl rfl⟩
    · simp only [hashmapApplyIteratorAux, hu, Bool.false_eq_true, if_false]
      exact ih t c hv

/-- A visitor that never stops makes the traversal complete (`0`) and
threads the context through every occupied slot in index order. -/
theorem applyIterAux_fold {σ : Type} (f : σ → HashmapElement → Int × σ)
    (hf : ∀ s e, (f s e).1 = -1 ∨ (f s e).1 = 0) :
    ∀ (is : List Nat) (t : Hashmap) (c : σ), is.Nodup →
      (hashmapApplyIteratorAux f is t c).1 = 0 ∧
      (hashmapApplyIteratorAux f is t c).2.2 =
        ((is.map (slotD t)).filter (fun e => e.used)).foldl (fun s e => (f s e).2) c := by
  intro is
  induction is with
  | nil => intro t c _; exact ⟨rfl, rfl⟩
  | cons i is ih =>
    intro t c hnd
    obtain ⟨hni, hnd'⟩ := List.nodup_cons.1 hnd
    by_cases hu : (slotD t i).used = true
    · simp only [hashmapApplyIteratorAux, hu, if_true, List.map_cons, List.filter_cons,
        if_pos hu, List.foldl_cons]
      rcases hf c (slotD t i) with hr1 | hr0
      · simp only [hr1, if_true]
        have hmap : is.map (slotD (clearSlot t i)) = is.map (slotD t) := by
          apply List.map_congr_left
          intro j hj
          exact slotD_clearSlot_ne t fun he => hni (he ▸ hj)
        obtain ⟨ih1, ih2⟩ := ih (clearSlot t i) (f c (slotD t i)).2 hnd'
        rw [hmap] at ih2
        exact ⟨ih1, ih2⟩
      · by_cases hneg : (f c (slotD t i)).1 = -1
        · simp only [hneg, if_true]
          have hmap : is.map (slotD (clearSlot t i)) = is.map (slotD t) := by
            apply List.map_congr_left
            intro j hj
            exact slotD_clearSlot_ne t fun he => hni (he ▸ hj)
          obtain ⟨ih1, ih2⟩ := ih (clearSlot t i) (f c (slotD t i)).2 hnd'
          rw [hmap] at ih2
          exact ⟨ih1, ih2⟩
        · simp only [hneg, hr0, if_true, if_false]
          exact ih t (f c (slotD t i)).2 hnd'
    · simp only [hashmapApplyIteratorAux, hu, Bool.false_eq_true, if_false, List.map_cons,
        List.filter_cons]
      exact ih t c hnd'

/-- A visitor that always removes leaves every visited bucket unoccupied
and every unvisited bucket untouched. -/
theorem applyIterAux_remove_all {σ : Type} (f : σ → HashmapElement → Int × σ)
    (hf : ∀ s e, (f s e).1 = -1) :
    ∀ (is : List Nat) (t : Hashmap) (c : σ), is.Nodup →
      (∀ j ∈ is, (slotD (hashmapApplyIteratorAux f is t c).2.1 j).used = false) ∧
      (∀ j, j ∉ is → slotD (hashmapApplyIteratorAux f is t c).2.1 j = slotD t j) := by
  intro is
  induction is with
  | nil => intro t c _; exact ⟨fun j hj => absurd hj (List.not_mem_nil j), fun j _ => rfl⟩
  | cons i is ih =>
    intro t c hnd
    obtain ⟨hni, hnd'⟩ := List.nodup_cons.1 hnd
    by_cases hu : (slotD t i).used = true
    · simp only [hashmapApplyIteratorAux, hu, if_true, hf c (slotD t i), if_pos rfl]
      have hi : i < t.data.length := used_lt_length hu
      obtain ⟨ih1, ih2⟩ := ih (clearSlot t i) (f c (slotD t i)).2 hnd'
      constructor
      · intro j hj
        rcases List.mem_cons.1 hj with rfl | hj'
        · rw [ih2 j hni, slotD_clearSlot_self hi]
          rfl
        · exact ih1 j hj'
      · intro j hj
        have hji : j ∉ is := fun hmem => hj (List.mem_cons_of_mem i hmem)
        have hjne : j ≠ i := fun he => hj (he ▸ List.mem_cons_self i is)
        rw [ih2 j hji, slotD_clearSlot_ne t (Ne.symm hjne)]
    · simp only [hashmapApplyIteratorAux, hu, Bool.false_eq_true, if_false]
      obtain ⟨ih1, ih2⟩ := ih t c hnd'
      constructor
      · intro j hj
        rcases List.mem_cons.1 hj with rfl | hj'
        · by_cases hji : j ∈ is
          · exact ih1 j hji
          · rw [ih2 j hji]
            simpa using hu
        · exact ih1 j hj'
      · intro j hj
        exact ih2 j fun hmem => hj (List.mem_cons_of_mem i hmem)

/-- If the visitor stops on the first occupied slot it sees, iteration
halts immediately: flag `1`, table unchanged, exactly one invocation. -/
theorem applyIterAux_stop {σ : Type} (f : σ → HashmapElement → Int × σ) :
    ∀ (is : List Nat) (t : Hashmap) (c : σ) (e : HashmapElement) (rest : List HashmapElement),
      (is.map (slotD t)).filter (fun x => x.used) = e :: rest →
      (f c e).1 ≠ -1 → (f c e).1 ≠ 0 →
      hashmapApplyIteratorAux f is t c = (1, t, (f c e).2) := by
  intro is
  induction is with
  | nil => intro t c e rest h; cases h
  | cons i is ih =>
    intro t c e rest h h1 h0
    by_cases hu : (slotD t i).used = true
    · rw [List.map_cons, List.filter_cons, if_pos hu] at h
      have he : slotD t i = e := by
        injection h with h' _
      subst he
      simp only [hashmapApplyIteratorAux, hu, if_true, h1, h0, if_false]
    · rw [List.map_cons, List.filter_cons, if_neg (by simp [hu])] at h
      simp only [hashmapApplyIteratorAux, hu, Bool.false_eq_true, if_false]
      exact ih t c e rest h h1 h0

/-! ## `hashmapCreate` -/

theorem hashmapCreate_fail_invalid (alloc : Nat → Bool) (n : Nat) (out : Hashmap)
    (h : n = 0 ∨ n &&& (n - 1) ≠ 0) :
    hashmapCreate alloc n out = (1, { out with tableSize := n, size := 0 }) := by
  unfold hashmapCreate
  rw [if_pos h]

theorem hashmapCreate_fail_alloc (alloc : Nat → Bool) (n : Nat) (out : Hashmap)
    (h1 : ¬ (n = 0 ∨ n &&& (n - 1) ≠ 0)) (h2 : alloc n = false) :
    hashmapCreate alloc n out = (1, { out with tableSize := n, size := 0 }) := by
  unfold hashmapCreate
  rw [if_neg h1, if_neg (by simp [h2])]

theorem hashmapCreate_success (alloc : Nat → Bool) (n : Nat) (out : Hashmap)
    (h1 : ¬ (n = 0 ∨ n &&& (n - 1) ≠ 0)) (h2 : alloc n = true) :
    hashmapCreate alloc n out = (0, ⟨n, 0, List.replicate n emptyElement⟩) := by
  unfold hashmapCreate
  rw [if_neg h1, if_pos h2]

theorem getD_replicate_self {α : Type} (n i : Nat) (a : α) :
    (List.replicate n a).getD i a = a := by
  by_cases h : i < n
  · rw [getD_eq_getElem _ _ (by simpa using h)]
    exact List.getElem_replicate ..
  · exact getD_eq_default _ _ (by simpa using h)

/-- A table fresh out of `hashmapCreate` satisfies the invariant. -/
theorem create_valid (alloc : Nat → Bool) (n : Nat) (out : Hashmap) (hU : n < U32)
    (h : (hashmapCreate alloc n out).1 = 0) :
    Valid (hashmapCreate alloc n out).2 ∧
      (hashmapCreate alloc n out).2 = ⟨n, 0, List.replicate n emptyElement⟩ := by
  by_cases h1 : n = 0 ∨ n &&& (n - 1) ≠ 0
  · rw [hashmapCreate_fail_invalid alloc n out h1] at h
    cases h
  · by_cases h2 : alloc n = true
    · rw [hashmapCreate_success alloc n out h1 h2]
      have hslot : ∀ i, slotD (⟨n, 0, List.replicate n emptyElement⟩ : Hashmap) i
          = emptyElement := fun i => getD_replicate_self n i emptyElement
      refine ⟨⟨by tauto, by tauto, hU, by simp, ?_, ?_, ?_⟩, rfl⟩
      · symm
        rw [List.countP_eq_zero]
        intro e he
        rw [List.eq_of_mem_replicate he]
        simp [emptyElement]
      · intro a _ b _ _ hua _
        rw [hslot a] at hua
        simp [emptyElement] at hua
      · intro a _ hua
        rw [hslot a] at hua
        simp [emptyElement] at hua
    · rw [hashmapCreate_fail_alloc alloc n out h1 (by simpa using h2)] at h
      cases h

/-- The C power-of-two test: a nonzero `n` with `n &&& (n - 1) = 0` is a
power of two. -/
theorem pow2_of_and_pred : ∀ n : Nat, n ≠ 0 → n &&& (n - 1) = 0 → ∃ k, n = 2 ^ k := by
  intro n
  induction n using Nat.strong_induction_on with
  | _ n ih =>
    intro h0 h
    rcases Nat.even_or_odd n with he | ho
    · obtain ⟨m, hm⟩ := he
      have hm2 : n = 2 * m := by omega
      have hmpos : m ≠ 0 := by omega
      have hsub : n - 1 = 2 * (m - 1) + 1 := by omega
      have hland : n &&& (n - 1) = 2 * (m &&& (m - 1)) := by
        rw [hsub, hm2]
        have hb := Nat.land_bit false m true (m - 1)
        simpa [Nat.bit_val] using hb
      rw [hland] at h
      obtain ⟨k, hk⟩ := ih m (by omega) hmpos (by omega)
      exact ⟨k + 1, by rw [hm2, hk, pow_succ]; ring⟩
    · obtain ⟨m, hm⟩ := ho
      rcases Nat.eq_zero_or_pos m with rfl | hmpos
      · exact ⟨0, by omega⟩
      · have hsub : n - 1 = 2 * m := by omega
        have hland : n &&& (n - 1) = 2 * (m &&& m) := by
          rw [hsub, hm]
          have hb := Nat.land_bit true m false m
          simpa [Nat.bit_val] using hb
        rw [hland, Nat.and_self] at h
        omega

/-! ## Key equivalence -/

theorem checkIfMatch_eq_kMatch (e : HashmapElement) (key : List Nat) (len : Nat) :
    hashmapCheckIfMatch e key len = kMatch e.key e.keyLen key len := rfl

theorem kMatch_iff {k1 k2 : List Nat} {l1 l2 : Nat} :
    kMatch k1 l1 k2 l2 = true ↔ l1 = l2 ∧ bytesEq k1 k2 l2 = true := by
  simp [kMatch]

theorem kMatch_refl (k : List Nat) (l : Nat) : kMatch k l k l = true :=
  kMatch_iff.2 ⟨rfl, bytesEq_refl _ _⟩

theorem kMatch_symm {k1 k2 : List Nat} {l1 l2 : Nat} (h : kMatch k1 l1 k2 l2 = true) :
    kMatch k2 l2 k1 l1 = true := by
  obtain ⟨hl, hb⟩ := kMatch_iff.1 h
  subst hl
  exact kMatch_iff.2 ⟨rfl, bytesEq_symm hb⟩

theorem kMatch_trans {k1 k2 k3 : List Nat} {l1 l2 l3 : Nat}
    (h1 : kMatch k1 l1 k2 l2 = true) (h2 : kMatch k2 l2 k3 l3 = true) :
    kMatch k1 l1 k3 l3 = true := by
  obtain ⟨hl1, hb1⟩ := kMatch_iff.1 h1
  obtain ⟨hl2, hb2⟩ := kMatch_iff.1 h2
  subst hl1
  subst hl2
  exact kMatch_iff.2 ⟨rfl, bytesEq_trans hb1 hb2⟩

theorem checkIfMatch_of_kMatch {e : HashmapElement} {k1 k2 : List Nat} {l1 l2 : Nat}
    (h : hashmapCheckIfMatch e k1 l1 = true) (hk : kMatch k1 l1 k2 l2 = true) :
    hashmapCheckIfMatch e k2 l2 = true := by
  rw [checkIfMatch_eq_kMatch] at h ⊢
  exact kMatch_trans h hk

/-- Two keys both matched by the same slot are equivalent. -/
theorem kMatch_of_checkIfMatch_both {e : HashmapElement} {k1 k2 : List Nat} {l1 l2 : Nat}
    (h1 : hashmapCheckIfMatch e k1 l1 = true) (h2 : hashmapCheckIfMatch e k2 l2 = true) :
    kMatch k1 l1 k2 l2 = true := by
  rw [checkIfMatch_eq_kMatch] at h1 h2
  exact kMatch_trans (kMatch_symm h1) h2

/-! ## `containsKey` -/

theorem containsKey_iff_exists {t : Hashmap} {key : List Nat} {len : Nat} :
    containsKey t key len = true ↔ ∃ j, isMatchAt t key len j = true := by
  constructor
  · intro h
    rw [containsKey, List.any_eq_true] at h
    obtain ⟨e, he, hp⟩ := h
    obtain ⟨i, hi, rfl⟩ := mem_data_iff_slotD.1 he
    exact ⟨i, by simpa [isMatchAt] using hp⟩
  · rintro ⟨j, hj⟩
    exact contains_of_isMatchAt hj

theorem containsKey_eq_false_iff {t : Hashmap} {key : List Nat} {len : Nat} :
    containsKey t key len = false ↔ ∀ j, isMatchAt t key len j = false := by
  constructor
  · intro h j
    exact isMatchAt_of_not_contains h j
  · intro h
    by_contra hx
    simp only [Bool.not_eq_false] at hx
    obtain ⟨j, hj⟩ := containsKey_iff_exists.1 hx
    rw [h j] at hj
    cases hj

theorem containsKey_congr {t t' : Hashmap} {key : List Nat} {len : Nat}
    (h : ∀ j, isMatchAt t' key len j = isMatchAt t key len j) :
    containsKey t' key len = containsKey t key len := by
  by_cases hc : containsKey t key len = true
  · obtain ⟨j, hj⟩ := containsKey_iff_exists.1 hc
    rw [hc]
    exact containsKey_iff_exists.2 ⟨j, by rw [h j]; exact hj⟩
  · have hc' : containsKey t key len = false := by simpa using hc
    rw [hc', containsKey_eq_false_iff]
    intro j
    rw [h j]
    exact isMatchAt_of_not_contains hc' j

/-- `containsKey` respects key equivalence. -/
theorem containsKey_key_congr {t : Hashmap} {k1 k2 : List Nat} {l1 l2 : Nat}
    (hk : kMatch k1 l1 k2 l2 = true) :
    containsKey t k1 l1 = containsKey t k2 l2 := by
  by_cases hc : containsKey t k1 l1 = true
  · obtain ⟨j, hj⟩ := containsKey_iff_exists.1 hc
    simp only [isMatchAt, Bool.and_eq_true] at hj
    rw [hc]
    symm
    exact containsKey_iff_exists.2
      ⟨j, by simp [isMatchAt, hj.1, checkIfMatch_of_kMatch hj.2 hk]⟩
  · have hc' : containsKey t k1 l1 = false := by simpa using hc
    rw [hc']
    symm
    rw [containsKey_eq_false_iff]
    intro j
    by_contra hx
    simp only [Bool.not_eq_false, isMatchAt, Bool.and_eq_true] at hx
    have : isMatchAt t k1 l1 j = true := by
      simp [isMatchAt, hx.1, checkIfMatch_of_kMatch hx.2 (kMatch_symm hk)]
    rw [containsKey_eq_false_iff.1 hc' j] at this
    cases this

theorem containsKey_empty_table (n : Nat) (key : List Nat) (len : Nat) :
    containsKey ⟨n, 0, List.replicate n emptyElement⟩ key len = false := by
  rw [containsKey, List.any_eq_false]
  intro e he
  rw [List.eq_of_mem_replicate he]
  simp [emptyElement]

/-! ## The contract of `put` and the rehash loop -/

/-- Clearing a slot erases exactly the keys equivalent to its own. -/
theorem containsKey_clearSlot_match {t : Hashmap} {i : Nat} (hv : Valid t)
    (hu : (slotD t i).used = true) {k : List Nat} {l : Nat}
    (hk : kMatch (slotD t i).key (slotD t i).keyLen k l = true) :
    containsKey (clearSlot t i) k l = false := by
  have hi : i < t.data.length := used_lt_length hu
  rw [containsKey_eq_false_iff]
  intro j
  rcases eq_or_ne j i with rfl | hji
  · simp [isMatchAt, slotD_clearSlot_self hi, emptyElement]
  · rw [show isMatchAt (clearSlot t i) k l j =
      isMatchAt t k l j from by rw [isMatchAt, isMatchAt, slotD_clearSlot_ne t (Ne.symm hji)]]
    by_contra hx
    simp only [Bool.not_eq_false, isMatchAt, Bool.and_eq_true] at hx
    have hj : j < t.data.length := used_lt_length hx.1
    obtain ⟨-, -, -, -, -, hnodup, -⟩ := hv
    have hmatch : hashmapCheckIfMatch (slotD t j) (slotD t i).key (slotD t i).keyLen = true := by
      rw [checkIfMatch_eq_kMatch] at hx ⊢
      exact kMatch_trans hx.2 (kMatch_symm hk)
    rw [hnodup j hj i hi hji hx.1 hu] at hmatch
    cases hmatch

/-- Clearing a slot leaves all non-equivalent keys unaffected. -/
theorem containsKey_clearSlot_nomatch {t : Hashmap} {i : Nat}
    (hu : (slotD t i).used = true) {k : List Nat} {l : Nat}
    (hk : kMatch (slotD t i).key (slotD t i).keyLen k l = false) :
    containsKey (clearSlot t i) k l = containsKey t k l := by
  have hi : i < t.data.length := used_lt_length hu
  apply containsKey_congr
  intro j
  rcases eq_or_ne j i with rfl | hji
  · rw [show isMatchAt t k l j = false from ?_, show isMatchAt (clearSlot t j) k l j
      = false from ?_]
    · simp [isMatchAt, slotD_clearSlot_self hi, emptyElement]
    · rw [isMatchAt, checkIfMatch_eq_kMatch, hk, Bool.and_false]
  · rw [isMatchAt, isMatchAt, slotD_clearSlot_ne t (Ne.symm hji)]

/-- A table contains the key of any of its occupied slots. -/
theorem containsKey_self_slot {t : Hashmap} {i : Nat} (hu : (slotD t i).used = true) :
    containsKey t (slotD t i).key (slotD t i).keyLen = true := by
  have hj : isMatchAt t (slotD t i).key (slotD t i).keyLen i = true := by
    simp [isMatchAt, hu, checkIfMatch_self]
  exact contains_of_isMatchAt hj

/-! ## Step equations of the iteration engine -/

theorem applyIterAux_cons_unused {σ : Type} (f : σ → HashmapElement → Int × σ)
    (is : List Nat) (t : Hashmap) (c : σ) {i : Nat} (hu : (slotD t i).used = false) :
    hashmapApplyIteratorAux f (i :: is) t c = hashmapApplyIteratorAux f is t c := by
  simp [hashmapApplyIteratorAux, hu]

theorem applyIterAux_cons_remove {σ : Type} (f : σ → HashmapElement → Int × σ)
    (is : List Nat) (t : Hashmap) (c : σ) {i : Nat} (hu : (slotD t i).used = true)
    (hr : (f c (slotD t i)).1 = -1) :
    hashmapApplyIteratorAux f (i :: is) t c =
      hashmapApplyIteratorAux f is (clearSlot t i) (f c (slotD t i)).2 := by
  simp [hashmapApplyIteratorAux, hu, hr]

theorem applyIterAux_cons_keep {σ : Type} (f : σ → HashmapElement → Int × σ)
    (is : List Nat) (t : Hashmap) (c : σ) {i : Nat} (hu : (slotD t i).used = true)
    (hr : (f c (slotD t i)).1 = 0) :
    hashmapApplyIteratorAux f (i :: is) t c =
      hashmapApplyIteratorAux f is t (f c (slotD t i)).2 := by
  simp [hashmapApplyIteratorAux, hu, hr]

theorem applyIterAux_cons_stop {σ : Type} (f : σ → HashmapElement → Int × σ)
    (is : List Nat) (t : Hashmap) (c : σ) {i : Nat} (hu : (slotD t i).used = true)
    (h1 : (f c (slotD t i)).1 ≠ -1) (h0 : (f c (slotD t i)).1 ≠ 0) :
    hashmapApplyIteratorAux f (i :: is) t c = (1, t, (f c (slotD t i)).2) := by
  simp [hashmapApplyIteratorAux, hu, h1, h0]

/-- Invariant of the re-insertion loop: on a complete traversal every
entry of the old table has been moved into the context table, the
counts add up, and the key set of the result is the union. -/
theorem rehash_loop_spec (put : Hashmap → List Nat → Nat → Nat → Int × Hashmap)
    (hput : PutSpec put) :
    ∀ (is : List Nat) (tOld nh : Hashmap),
      is.Nodup → Valid tOld → Valid nh →
      (∀ j, (slotD tOld j).used = true → j ∈ is) →
      (∀ key len, containsKey tOld key len = true → containsKey nh key len = false) →
      (hashmapApplyIteratorAux (hashmapRehashIterator put) is tOld nh).1 = 0 →
      Valid (hashmapApplyIteratorAux (hashmapRehashIterator put) is tOld nh).2.2 ∧
      (hashmapApplyIteratorAux (hashmapRehashIterator put) is tOld nh).2.2.size =
        nh.size + tOld.size ∧
      (∀ key len,
        containsKey (hashmapApplyIteratorAux (hashmapRehashIterator put) is tOld nh).2.2
            key len =
          (containsKey tOld key len || containsKey nh key len)) := by
  intro is
  induction is with
  | nil =>
    intro tOld nh _ hvo hvn hused hdisj _
    have hsize0 : tOld.size = 0 := by
      obtain ⟨-, -, -, -, hsize, -, -⟩ := hvo
      rw [hsize, List.countP_eq_zero]
      intro e he
      obtain ⟨j, hj, rfl⟩ := mem_data_iff_slotD.1 he
      intro hx
      exact absurd (hused j hx) (List.not_mem_nil j)
    have hnone : ∀ key len, containsKey tOld key len = false := by
      intro key len
      rw [containsKey_eq_false_iff]
      intro j
      rw [isMatchAt]
      by_cases hu : (slotD tOld j).used = true
      · exact absurd (hused j hu) (List.not_mem_nil j)
      · simp [hu]
    refine ⟨hvn, ?_, ?_⟩
    · show nh.size = nh.size + tOld.size
      omega
    · intro key len
      show containsKey nh key len = (containsKey tOld key len || containsKey nh key len)
      rw [hnone key len]
      rfl
  | cons i is ih =>
    intro tOld nh hnd hvo hvn hused hdisj hflag
    obtain ⟨hni, hnd'⟩ := List.nodup_cons.1 hnd
    by_cases hu : (slotD tOld i).used = true
    · by_cases hp : (put nh (slotD tOld i).key (slotD tOld i).keyLen (slotD tOld i).data).1 = 0
      · have hstep := applyIterAux_cons_remove (hashmapRehashIterator put) is tOld nh hu
          (by simp [hashmapRehashIterator, hp])
        have hctx : (hashmapRehashIterator put nh (slotD tOld i)).2 =
            (put nh (slotD tOld i).key (slotD tOld i).keyLen (slotD tOld i).data).2 := by
          simp [hashmapRehashIterator, hp]
        rw [hstep, hctx] at hflag ⊢
        have hi : i < tOld.data.length := used_lt_length hu
        obtain ⟨hvc, hszc, hposc⟩ := clearSlot_valid hvo hi hu
        obtain ⟨hvp, hpost⟩ :=
          hput nh (slotD tOld i).key (slotD tOld i).keyLen (slotD tOld i).data hvn
        obtain ⟨hc1, -, hc3, hc4⟩ := hpost hp
        have hselfc : containsKey tOld (slotD tOld i).key (slotD tOld i).keyLen = true :=
          containsKey_self_slot hu
        have hnotnh : containsKey nh (slotD tOld i).key (slotD tOld i).keyLen = false :=
          hdisj _ _ hselfc
        have hp2size :
            (put nh (slotD tOld i).key (slotD tOld i).keyLen (slotD tOld i).data).2.size =
              nh.size + 1 := by
          rw [hc3, hnotnh]
          simp
        have hused' : ∀ j, (slotD (clearSlot tOld i) j).used = true → j ∈ is := by
          intro j hj
          rcases eq_or_ne j i with rfl | hji
          · rw [slotD_clearSlot_self hi] at hj
            simp [emptyElement] at hj
          · rw [slotD_clearSlot_ne tOld (Ne.symm hji)] at hj
            rcases List.mem_cons.1 (hused j hj) with rfl | hmem
            · exact absurd rfl hji
            · exact hmem
        have hdisj' : ∀ key len, containsKey (clearSlot tOld i) key len = true →
            containsKey
              (put nh (slotD tOld i).key (slotD tOld i).keyLen (slotD tOld i).data).2
              key len = false := by
          intro key len hck
          by_cases hk : kMatch (slotD tOld i).key (slotD tOld i).keyLen key len = true
          · rw [containsKey_clearSlot_match hvo hu hk] at hck
            cases hck
          · have hk' : kMatch (slotD tOld i).key (slotD tOld i).keyLen key len = false := by
              simpa using hk
            rw [containsKey_clearSlot_nomatch hu hk'] at hck
            rw [hc4 key len hk']
            exact hdisj key len hck
        obtain ⟨ihv, ihsz, ihcont⟩ := ih (clearSlot tOld i)
          (put nh (slotD tOld i).key (slotD tOld i).keyLen (slotD tOld i).data).2
          hnd' hvc hvp hused' hdisj' hflag
        refine ⟨ihv, ?_, ?_⟩
        · rw [ihsz, hp2size, hszc]
          omega
        · intro key len
          rw [ihcont key len]
          by_cases hk : kMatch (slotD tOld i).key (slotD tOld i).keyLen key len = true
          · rw [containsKey_clearSlot_match hvo hu hk]
            have hp2c : containsKey
                (put nh (slotD tOld i).key (slotD tOld i).keyLen (slotD tOld i).data).2
                key len = true := by
              rw [← containsKey_key_congr hk]
              exact hc1
            have htc : containsKey tOld key len = true := by
              rw [← containsKey_key_congr hk]
              exact hselfc
            rw [hp2c, htc]
            rfl
          · have hk' : kMatch (slotD tOld i).key (slotD tOld i).keyLen key len = false := by
              simpa using hk
            rw [containsKey_clearSlot_nomatch hu hk', hc4 key len hk']
      · have hstep := applyIterAux_cons_stop (hashmapRehashIterator put) is tOld nh hu
          (by simp [hashmapRehashIterator, hp]) (by simp [hashmapRehashIterator, hp])
        rw [hstep] at hflag
        simp at hflag
    · have hu' : (slotD tOld i).used = false := by simpa using hu
      rw [applyIterAux_cons_unused (hashmapRehashIterator put) is tOld nh hu'] at hflag ⊢
      have hused' : ∀ j, (slotD tOld j).used = true → j ∈ is := by
        intro j hj
        rcases List.mem_cons.1 (hused j hj) with rfl | hmem
        · rw [hj] at hu'
          cases hu'
        · exact hmem
      exact ih tOld nh hnd' hvo hvn hused' hdisj hflag

/-! ## `hashmapExpandWith` -/

theorem hashmapExpand_eq (alloc : Nat → Bool) (fuel : Nat) (t : Hashmap) :
    hashmapExpand alloc fuel t = hashmapExpandWith alloc (hashmapPut alloc fuel) t := rfl

theorem expandWith_create_fail (alloc : Nat → Bool)
    (put : Hashmap → List Nat → Nat → Nat → Int × Hashmap) (t : Hashmap)
    (h : (hashmapCreate alloc ((2 * t.tableSize) % U32) ⟨0, 0, []⟩).1 ≠ 0) :
    hashmapExpandWith alloc put t =
      ((hashmapCreate alloc ((2 * t.tableSize) % U32) ⟨0, 0, []⟩).1, t) := by
  simp [hashmapExpandWith, h]

theorem expandWith_iter_fail (alloc : Nat → Bool)
    (put : Hashmap → List Nat → Nat → Nat → Int × Hashmap) (t : Hashmap)
    (hc : (hashmapCreate alloc ((2 * t.tableSize) % U32) ⟨0, 0, []⟩).1 = 0)
    (hit : (hashmapApplyIterator t (hashmapRehashIterator put)
      (hashmapCreate alloc ((2 * t.tableSize) % U32) ⟨0, 0, []⟩).2).1 ≠ 0) :
    hashmapExpandWith alloc put t =
      ((hashmapApplyIterator t (hashmapRehashIterator put)
          (hashmapCreate alloc ((2 * t.tableSize) % U32) ⟨0, 0, []⟩).2).1,
        (hashmapApplyIterator t (hashmapRehashIterator put)
          (hashmapCreate alloc ((2 * t.tableSize) % U32) ⟨0, 0, []⟩).2).2.1) := by
  simp [hashmapExpandWith, hc, hit]

theorem expandWith_success_eq (alloc : Nat → Bool)
    (put : Hashmap → List Nat → Nat → Nat → Int × Hashmap) (t : Hashmap)
    (hc : (hashmapCreate alloc ((2 * t.tableSize) % U32) ⟨0, 0, []⟩).1 = 0)
    (hit : (hashmapApplyIterator t (hashmapRehashIterator put)
      (hashmapCreate alloc ((2 * t.tableSize) % U32) ⟨0, 0, []⟩).2).1 = 0) :
    hashmapExpandWith alloc put t =
      (0, (hashmapApplyIterator t (hashmapRehashIterator put)
        (hashmapCreate alloc ((2 * t.tableSize) % U32) ⟨0, 0, []⟩).2).2.2) := by
  simp [hashmapExpandWith, hc, hit]

/-- On any failing path `hashmapExpand` keeps the old table valid with
its capacity, never increases its count, and leaves every slot either
unchanged or cleared (the cleared ones are those already migrated into
the discarded new table). -/
theorem expandWith_fail (alloc : Nat → Bool)
    (put : Hashmap → List Nat → Nat → Nat → Int × Hashmap) (t : Hashmap) (hv : Valid t)
    (hfail : (hashmapExpandWith alloc put t).1 ≠ 0) :
    Valid (hashmapExpandWith alloc put t).2 ∧
    (hashmapExpandWith alloc put t).2.tableSize = t.tableSize ∧
    (hashmapExpandWith alloc put t).2.size ≤ t.size ∧
    (∀ j, slotD (hashmapExpandWith alloc put t).2 j = slotD t j ∨
          slotD (hashmapExpandWith alloc put t).2 j = emptyElement) := by
  by_cases hc : (hashmapCreate alloc ((2 * t.tableSize) % U32) ⟨0, 0, []⟩).1 = 0
  · by_cases hit : (hashmapApplyIterator t (hashmapRehashIterator put)
        (hashmapCreate alloc ((2 * t.tableSize) % U32) ⟨0, 0, []⟩).2).1 = 0
    · rw [expandWith_success_eq alloc put t hc hit] at hfail
      simp at hfail
    · rw [expandWith_iter_fail alloc put t hc hit]
      have hpres := applyIterAux_preserves (hashmapRehashIterator put)
        (List.range t.tableSize) t
        (hashmapCreate alloc ((2 * t.tableSize) % U32) ⟨0, 0, []⟩).2 hv
      exact ⟨hpres.1, hpres.2.1, hpres.2.2.1, hpres.2.2.2⟩
  · rw [expandWith_create_fail alloc put t hc]
    exact ⟨hv, rfl, Nat.le_refl _, fun j => Or.inl rfl⟩

/-- Expansion with a well-behaved `put` yields a valid table; on success
the count and the key set are preserved. -/
theorem expandWith_spec (alloc : Nat → Bool)
    (put : Hashmap → List Nat → Nat → Nat → Int × Hashmap) (hput : PutSpec put)
    (t : Hashmap) (hv : Valid t) :
    Valid (hashmapExpandWith alloc put t).2 ∧
    ((hashmapExpandWith alloc put t).1 = 0 →
      (hashmapExpandWith alloc put t).2.size = t.size ∧
      ∀ key len, containsKey (hashmapExpandWith alloc put t).2 key len =
        containsKey t key len) := by
  by_cases hc : (hashmapCreate alloc ((2 * t.tableSize) % U32) ⟨0, 0, []⟩).1 = 0
  · obtain ⟨hvnew, hneweq⟩ := create_valid alloc ((2 * t.tableSize) % U32) ⟨0, 0, []⟩
      (Nat.mod_lt _ (by norm_num [U32])) hc
    by_cases hit : (hashmapApplyIterator t (hashmapRehashIterator put)
        (hashmapCreate alloc ((2 * t.tableSize) % U32) ⟨0, 0, []⟩).2).1 = 0
    · rw [expandWith_success_eq alloc put t hc hit]
      have hused : ∀ j, (slotD t j).used = true → j ∈ List.range t.tableSize := by
        intro j hj
        rw [List.mem_range]
        have := used_lt_length hj
        have hlen := hv.2.2.2.1
        omega
      have hdisj : ∀ key len, containsKey t key len = true →
          containsKey (hashmapCreate alloc ((2 * t.tableSize) % U32) ⟨0, 0, []⟩).2
            key len = false := by
        intro key len _
        rw [hneweq]
        exact containsKey_empty_table _ _ _
      obtain ⟨hlv, hlsz, hlcont⟩ := rehash_loop_spec put hput (List.range t.tableSize) t
        (hashmapCreate alloc ((2 * t.tableSize) % U32) ⟨0, 0, []⟩).2
        (List.nodup_range _) hv hvnew hused hdisj hit
      refine ⟨hlv, fun _ => ⟨?_, ?_⟩⟩
      · show (hashmapApplyIteratorAux (hashmapRehashIterator put) (List.range t.tableSize) t
            (hashmapCreate alloc ((2 * t.tableSize) % U32) ⟨0, 0, []⟩).2).2.2.size = t.size
        rw [hlsz, hneweq]
        show 0 + t.size = t.size
        omega
      · intro key len
        show containsKey (hashmapApplyIteratorAux (hashmapRehashIterator put)
            (List.range t.tableSize) t
            (hashmapCreate alloc ((2 * t.tableSize) % U32) ⟨0, 0, []⟩).2).2.2 key len =
          containsKey t key len
        rw [hlcont key len, hneweq, containsKey_empty_table, Bool.or_false]
    · rw [expandWith_iter_fail alloc put t hc hit]
      have hpres := applyIterAux_preserves (hashmapRehashIterator put)
        (List.range t.tableSize) t
        (hashmapCreate alloc ((2 * t.tableSize) % U32) ⟨0, 0, []⟩).2 hv
      exact ⟨hpres.1, fun h => absurd h hit⟩
  · rw [expandWith_create_fail alloc put t hc]
    exact ⟨hv, fun h => absurd h hc⟩

/-! ## The specification of `hashmapPut` -/

theorem hashmapPut_eq_some (alloc : Nat → Bool) (fuel : Nat) (t : Hashmap)
    (key : List Nat) (len v i : Nat) (h : hashmapGetBucket t key len = some i) :
    hashmapPut alloc fuel t key len v = (0, putAt t i key len v) := by
  cases fuel <;> simp [hashmapPut, h]

theorem hashmapPut_zero_none (alloc : Nat → Bool) (t : Hashmap)
    (key : List Nat) (len v : Nat) (h : hashmapGetBucket t key len = none) :
    hashmapPut alloc 0 t key len v = (1, t) := by
  simp [hashmapPut, h]

theorem hashmapPut_succ_none (alloc : Nat → Bool) (fuel : Nat) (t : Hashmap)
    (key : List Nat) (len v : Nat) (h : hashmapGetBucket t key len = none) :
    hashmapPut alloc (fuel + 1) t key len v =
      if (hashmapExpand alloc fuel t).1 ≠ 0 then (1, (hashmapExpand alloc fuel t).2)
      else hashmapPut alloc fuel (hashmapExpand alloc fuel t).2 key len v := by
  simp only [hashmapPut, h, hashmapExpand]

/-- The slot-writing branch of `hashmapPut` meets the whole contract. -/
theorem put_some_branch {t : Hashmap} {key : List Nat} {len v i : Nat} (hv : Valid t)
    (hgb : hashmapGetBucket t key len = some i) :
    Valid (putAt t i key len v) ∧
    containsKey (putAt t i key len v) key len = true ∧
    hashmapGet (putAt t i key len v) key len = some v ∧
    (putAt t i key len v).size = t.size + (if containsKey t key len then 0 else 1) ∧
    (∀ key2 len2, kMatch key len key2 len2 = false →
      containsKey (putAt t i key len v) key2 len2 = containsKey t key2 len2) := by
  obtain ⟨hlt, hwin, hcase⟩ := hashmapGetBucket_some_spec hgb
  have hts : 0 < t.tableSize := by omega
  have hi : i < t.data.length := by
    obtain ⟨off, hoff, hieq⟩ := hwin
    have hmod : (hashmapStringHasher t key len + off) % t.tableSize < t.tableSize :=
      Nat.mod_lt _ hts
    have hlen := hv.2.2.2.1
    omega
  rcases hcase with hm | ⟨hfree, hnwin⟩
  · obtain ⟨hv', hsz', hself, hne⟩ := putAt_valid_overwrite (v := v) hv hm
    have hcontains_t : containsKey t key len = true := contains_of_isMatchAt hm
    have hm' : isMatchAt (putAt t i key len v) key len i = true := by
      rw [isMatchAt, hself]
      simp [checkIfMatch_mk_self]
    refine ⟨hv', contains_of_isMatchAt hm', ?_, ?_, ?_⟩
    · rw [hashmapGet_eq_some hv' hm', hself]
    · rw [hsz', hcontains_t]
      simp
    · intro key2 len2 hk2
      apply containsKey_congr
      intro j
      rcases eq_or_ne j i with rfl | hji
      · have hnew : isMatchAt (putAt t j key len v) key2 len2 j = false := by
          rw [isMatchAt, hself]
          show (true && kMatch key len key2 len2) = false
          rw [hk2]
          rfl
        have hold : isMatchAt t key2 len2 j = false := by
          by_contra hx
          simp only [Bool.not_eq_false] at hx
          simp only [isMatchAt, Bool.and_eq_true] at hx hm
          have := kMatch_of_checkIfMatch_both hm.2 hx.2
          rw [hk2] at this
          cases this
        rw [hnew, hold]
      · rw [isMatchAt, isMatchAt, hne j hji]
  · have hnom : ∀ j, isMatchAt t key len j = false := no_match_of_no_window_match hv hnwin
    obtain ⟨hv', hsz', hself, hne⟩ := putAt_valid_insert hv hi hfree hnom hwin hlt
    have hcontains_t : containsKey t key len = false := containsKey_eq_false_iff.2 hnom
    have hm' : isMatchAt (putAt t i key len v) key len i = true := by
      rw [isMatchAt, hself]
      simp [checkIfMatch_mk_self]
    refine ⟨hv', contains_of_isMatchAt hm', ?_, ?_, ?_⟩
    · rw [hashmapGet_eq_some hv' hm', hself]
    · rw [hsz', hcontains_t]
      simp
    · intro key2 len2 hk2
      apply containsKey_congr
      intro j
      rcases eq_or_ne j i with rfl | hji
      · have hnew : isMatchAt (putAt t j key len v) key2 len2 j = false := by
          rw [isMatchAt, hself]
          show (true && kMatch key len key2 len2) = false
          rw [hk2]
          rfl
        have hold : isMatchAt t key2 len2 j = false := by
          rw [isMatchAt, hfree]
          rfl
        rw [hnew, hold]
      · rw [isMatchAt, isMatchAt, hne j hji]

/-- `hashmapPut` meets the contract at every fuel level. -/
theorem putSpec_hashmapPut (alloc : Nat → Bool) :
    ∀ fuel, PutSpec (hashmapPut alloc fuel) := by
  intro fuel
  induction fuel with
  | zero =>
    intro t key len v hv
    rcases hgb : hashmapGetBucket t key len with _ | i
    · rw [hashmapPut_zero_none alloc t key len v hgb]
      exact ⟨hv, fun h => absurd h (by simp)⟩
    · rw [hashmapPut_eq_some alloc 0 t key len v i hgb]
      obtain ⟨h1, h2, h3, h4, h5⟩ := put_some_branch (v := v) hv hgb
      exact ⟨h1, fun _ => ⟨h2, h3, h4, h5⟩⟩
  | succ fuel ih =>
    intro t key len v hv
    rcases hgb : hashmapGetBucket t key len with _ | i
    · rw [hashmapPut_succ_none alloc fuel t key len v hgb]
      have hexp := expandWith_spec alloc (hashmapPut alloc fuel) ih t hv
      rw [← hashmapExpand_eq] at hexp
      by_cases he : (hashmapExpand alloc fuel t).1 = 0
      · rw [if_neg (by simpa using he)]
        obtain ⟨hesz, hecont⟩ := hexp.2 he
        obtain ⟨hrv, hrpost⟩ := ih (hashmapExpand alloc fuel t).2 key len v hexp.1
        refine ⟨hrv, fun hflag => ?_⟩
        obtain ⟨hr1, hr2, hr3, hr4⟩ := hrpost hflag
        refine ⟨hr1, hr2, ?_, ?_⟩
        · rw [hr3, hesz, hecont key len]
        · intro key2 len2 hk2
          rw [hr4 key2 len2 hk2, hecont key2 len2]
      · rw [if_pos he]
        exact ⟨hexp.1, fun h => absurd h (by simp)⟩
    · rw [hashmapPut_eq_some alloc (fuel + 1) t key len v i hgb]
      obtain ⟨h1, h2, h3, h4, h5⟩ := put_some_branch (v := v) hv hgb
      exact ⟨h1, fun _ => ⟨h2, h3, h4, h5⟩⟩

/-! ## Remaining structural lemmas -/

theorem hashmapRemove_valid {t : Hashmap} (key : List Nat) (len : Nat) (hv : Valid t) :
    Valid (hashmapRemove t key len).2 := by
  by_cases hc : containsKey t key len = true
  · obtain ⟨j, hj⟩ := containsKey_iff_exists.1 hc
    rw [hashmapRemove_eq_clear hv hj]
    have hu : (slotD t j).used = true := by
      simp only [isMatchAt, Bool.and_eq_true] at hj
      exact hj.1
    exact (clearSlot_valid hv (isMatchAt_lt_length hj) hu).1
  · rw [hashmapRemove_eq_none (isMatchAt_of_not_contains (by simpa using hc))]
    exact hv

/-- Every reachable table satisfies the full invariant. -/
theorem reachable_valid : ∀ {t : Hashmap}, Reachable t → Valid t := by
  intro t h
  induction h with
  | create alloc n out hn hflag => exact (create_valid alloc n out hn hflag).1
  | put alloc fuel t key len v ht ih =>
    exact (putSpec_hashmapPut alloc fuel t key len v ih).1
  | remove t key len ht ih => exact hashmapRemove_valid key len ih
  | applyIterator t f c ht ih =>
    exact (applyIterAux_preserves f (List.range t.tableSize) t c ih).1
  | expand alloc fuel t ht ih =>
    have hx := expandWith_spec alloc (hashmapPut alloc fuel)
      (putSpec_hashmapPut alloc fuel) t ih
    rw [← hashmapExpand_eq] at hx
    exact hx.1

theorem foldl_count {α : Type} : ∀ (l : List α) (n : Nat),
    l.foldl (fun m _ => m + 1) n = n + l.length := by
  intro l
  induction l with
  | nil => intro n; simp
  | cons a as ih =>
    intro n
    simp only [List.foldl_cons, List.length_cons]
    rw [ih]
    omega

/-! ## The claims -/

/-- C1 (counterexample): the claim "if re-insertion during growth fails,
`hashmapExpand` leaves the old table fully intact and unmodified" is
false on this code.  `ceOld` is a valid 32-bucket table with 16 entries;
with an allocator that grants the 64-slot array but refuses the 128-slot
one, the rehash of the last entry (key `[153]`) finds its whole probe
window occupied, triggers a nested growth whose allocation fails, and
`hashmapExpand` aborts — but the 15 entries already migrated into the
discarded new table have been cleared from the old table, whose count
drops from 16 to 1; entry `[34]` was retrievable before and is gone
after. -/
theorem expand_abort_counterexample :
    Valid ceOld ∧
    (hashmapExpand ceAlloc 8 ceOld).1 ≠ 0 ∧
    ¬((hashmapExpand ceAlloc 8 ceOld).2.size = ceOld.size ∧
      ∀ j < ceOld.data.length,
        slotD (hashmapExpand ceAlloc 8 ceOld).2 j = slotD ceOld j) ∧
    hashmapGet ceOld [34] 1 = some 6 ∧
    hashmapGet (hashmapExpand ceAlloc 8 ceOld).2 [34] 1 = none ∧
    (hashmapExpand ceAlloc 8 ceOld).2.size = 1 ∧
    ceOld.size = 16 := by
  decide

/-- C1 (amended): if re-insertion during growth fails, `hashmapExpand`
surfaces the failure and performs no swap — the old table keeps its
capacity, remains a valid table, and its count never increases — but it
is not left unmodified: every slot is either unchanged or cleared, the
cleared ones being exactly the entries already re-inserted into the
discarded new table, so the old table's count may decrease and only the
not-yet-migrated entries remain. -/
theorem expand_abort_amended (alloc : Nat → Bool) (fuel : Nat) (t : Hashmap)
    (hv : Valid t) (hfail : (hashmapExpand alloc fuel t).1 ≠ 0) :
    Valid (hashmapExpand alloc fuel t).2 ∧
    (hashmapExpand alloc fuel t).2.tableSize = t.tableSize ∧
    (hashmapExpand alloc fuel t).2.size ≤ t.size ∧
    (∀ j, slotD (hashmapExpand alloc fuel t).2 j = slotD t j ∨
          slotD (hashmapExpand alloc fuel t).2 j = emptyElement) := by
  rw [hashmapExpand_eq] at hfail ⊢
  exact expandWith_fail alloc (hashmapPut alloc fuel) t hv hfail

theorem expand_abort_amended_witness :
    Valid ceOld ∧ (hashmapExpand ceAlloc 8 ceOld).1 ≠ 0 ∧
    (Valid (hashmapExpand ceAlloc 8 ceOld).2 ∧
      (hashmapExpand ceAlloc 8 ceOld).2.tableSize = ceOld.tableSize ∧
      (hashmapExpand ceAlloc 8 ceOld).2.size ≤ ceOld.size ∧
      (∀ j, slotD (hashmapExpand ceAlloc 8 ceOld).2 j = slotD ceOld j ∨
            slotD (hashmapExpand ceAlloc 8 ceOld).2 j = emptyElement)) :=
  ⟨by decide, by decide, expand_abort_amended ceAlloc 8 ceOld (by decide) (by decide)⟩

/-- C2: `hashmapGetBucket` follows the four-step contract: at or above
capacity it reports needs-growth (`none`) immediately; otherwise the
probe window is the `HASHMAP_MAX_CHAIN_LENGTH = 8` indices stepping `+1`
modulo capacity from the hash-derived start, the first pass returns the
first occupied slot whose key matches exactly, and failing that a fully
occupied window yields needs-growth (regardless of free slots elsewhere)
while otherwise the second pass returns the first unoccupied slot. -/
theorem getBucket_four_step_contract (t : Hashmap) (key : List Nat) (len : Nat) :
    (t.tableSize ≤ t.size → hashmapGetBucket t key len = none) ∧
    (t.size < t.tableSize →
      bucketWindow t key len =
        (List.range HASHMAP_MAX_CHAIN_LENGTH).map
          (fun off => (hashmapStringHasher t key len + off) % t.tableSize) ∧
      hashmapGetBucket t key len =
        match (bucketWindow t key len).find? (isMatchAt t key len) with
        | some j => some j
        | none =>
          if (bucketWindow t key len).all (fun j => (slotD t j).used) then none
          else (bucketWindow t key len).find? fun j => !(slotD t j).used) :=
  ⟨fun h => hashmapGetBucket_none_of_full key len h,
   fun h =>
    ⟨probeWindow_eq_map t (by omega) HASHMAP_MAX_CHAIN_LENGTH
      (hashmapStringHasher t key len) (hashmapStringHasher_lt t key len (by omega)),
     hashmapGetBucket_eq t key len h⟩⟩

theorem getBucket_four_step_contract_witness :
    tW.size < tW.tableSize ∧
    (bucketWindow tW [5] 1 =
      (List.range HASHMAP_MAX_CHAIN_LENGTH).map
        (fun off => (hashmapStringHasher tW [5] 1 + off) % tW.tableSize) ∧
    hashmapGetBucket tW [5] 1 =
      match (bucketWindow tW [5] 1).find? (isMatchAt tW [5] 1) with
      | some j => some j
      | none =>
        if (bucketWindow tW [5] 1).all (fun j => (slotD tW j).used) then none
        else (bucketWindow tW [5] 1).find? fun j => !(slotD tW j).used) :=
  ⟨by decide, (getBucket_four_step_contract tW [5] 1).2 (by decide)⟩

/-- C3: on a valid table, two successful `put`s of the same key
overwrite rather than duplicate: a `get` of the key afterwards returns
the second value, the key is stored in exactly one slot (holding the
freshly supplied key bytes, length and value), the second `put` leaves
the count unchanged, and the first increments it exactly when the key
was not previously present. -/
theorem put_put_get_overwrite (alloc : Nat → Bool) (fuel1 fuel2 : Nat) (t : Hashmap)
    (k : List Nat) (v1 v2 : Nat) (hv : Valid t)
    (h1 : (hashmapPut alloc fuel1 t k k.length v1).1 = 0)
    (h2 : (hashmapPut alloc fuel2 (hashmapPut alloc fuel1 t k k.length v1).2
        k k.length v2).1 = 0) :
    hashmapGet (hashmapPut alloc fuel2 (hashmapPut alloc fuel1 t k k.length v1).2
        k k.length v2).2 k k.length = some v2 ∧
    (∃ j, isMatchAt (hashmapPut alloc fuel2 (hashmapPut alloc fuel1 t k k.length v1).2
        k k.length v2).2 k k.length j = true) ∧
    (∀ j j', isMatchAt (hashmapPut alloc fuel2 (hashmapPut alloc fuel1 t k k.length v1).2
          k k.length v2).2 k k.length j = true →
        isMatchAt (hashmapPut alloc fuel2 (hashmapPut alloc fuel1 t k k.length v1).2
          k k.length v2).2 k k.length j' = true → j = j') ∧
    (hashmapPut alloc fuel2 (hashmapPut alloc fuel1 t k k.length v1).2
        k k.length v2).2.size = (hashmapPut alloc fuel1 t k k.length v1).2.size ∧
    (hashmapPut alloc fuel1 t k k.length v1).2.size =
      t.size + (if containsKey t k k.length then 0 else 1) := by
  obtain ⟨hv1, hpost1⟩ := putSpec_hashmapPut alloc fuel1 t k k.length v1 hv
  obtain ⟨hc1, hg1, hs1, hp1⟩ := hpost1 h1
  obtain ⟨hv2, hpost2⟩ := putSpec_hashmapPut alloc fuel2
    (hashmapPut alloc fuel1 t k k.length v1).2 k k.length v2 hv1
  obtain ⟨hc2, hg2, hs2, hp2⟩ := hpost2 h2
  refine ⟨hg2, containsKey_iff_exists.1 hc2, ?_, ?_, hs1⟩
  · intro j j' hj hj'
    exact isMatchAt_unique hv2 hj hj'
  · rw [hs2, hc1]
    simp

theorem put_put_get_overwrite_witness :
    Valid t8 ∧ (hashmapPut allocAll 8 t8 [1, 2] (List.length [1, 2]) 5).1 = 0 ∧
    (hashmapPut allocAll 8 (hashmapPut allocAll 8 t8 [1, 2] (List.length [1, 2]) 5).2
      [1, 2] (List.length [1, 2]) 7).1 = 0 ∧
    hashmapGet (hashmapPut allocAll 8
        (hashmapPut allocAll 8 t8 [1, 2] (List.length [1, 2]) 5).2
        [1, 2] (List.length [1, 2]) 7).2 [1, 2] (List.length [1, 2]) = some 7 :=
  ⟨by decide, by decide, by decide,
   (put_put_get_overwrite allocAll 8 8 t8 [1, 2] 5 7 (by decide) (by decide)
     (by decide)).1⟩

/-- C4: every table reachable from a successful `hashmapCreate` through
any sequence of `hashmapPut`, `hashmapRemove`, `hashmapApplyIterator`
and `hashmapExpand` calls has a capacity that is a nonzero power of
two, a count bounded by the capacity, and no two distinct occupied
slots holding matching keys (same length, same bytes): every operation
preserves these invariants. -/
theorem reachable_invariants (t : Hashmap) (h : Reachable t) :
    (∃ k, t.tableSize = 2 ^ k) ∧
    t.size ≤ t.tableSize ∧
    (∀ i < t.data.length, ∀ j < t.data.length, i ≠ j →
      (slotD t i).used = true → (slotD t j).used = true →
      hashmapCheckIfMatch (slotD t i) (slotD t j).key (slotD t j).keyLen = false) := by
  have hv := reachable_valid h
  have hle := Valid.size_le hv
  obtain ⟨h0, hpow, -, -, -, hnodup, -⟩ := hv
  exact ⟨pow2_of_and_pred t.tableSize h0 hpow, hle, hnodup⟩

theorem reachable_invariants_witness :
    (∃ k, t8.tableSize = 2 ^ k) ∧
    t8.size ≤ t8.tableSize ∧
    (∀ i < t8.data.length, ∀ j < t8.data.length, i ≠ j →
      (slotD t8 i).used = true → (slotD t8 j).used = true →
      hashmapCheckIfMatch (slotD t8 i) (slotD t8 j).key (slotD t8 j).keyLen = false) :=
  reachable_invariants t8
    (Reachable.create allocAll 8 ⟨0, 0, []⟩ (by decide) (by decide))

/-- C5: `hashmapApplyIterator` is the loop over bucket indices in
ascending order, and at every point of the traversal — any visitor, any
remaining index list, any intermediate table and context — an
unoccupied slot is skipped, a Remove answer (-1) zeroes every field of
the visited slot and decrements the count before the loop continues, a
Continue answer (0) proceeds with the slot untouched, and any other
answer halts immediately, reporting an incomplete traversal (flag 1)
with the table as it stood.  Consequently, on a valid table a visitor
that never stops completes (flag 0) with the final context the fold
over the occupied slots in array order, each visited once; an
always-Remove visitor leaves every slot unoccupied and the count 0; a
Stop on the first occupied slot returns that slot's answer with the
table untouched; the result is always a valid table; and
`hashmapDestroyWithOwnership` with a counting visitor counts exactly
the occupied slots and reports a complete traversal. -/
theorem applyIterator_contract {σ : Type} (t : Hashmap)
    (f : σ → HashmapElement → Int × σ) (c : σ) (hv : Valid t) :
    hashmapApplyIterator t f c =
      hashmapApplyIteratorAux f (List.range t.tableSize) t c ∧
    (∀ (i : Nat) (is : List Nat) (u : Hashmap) (s : σ),
      ((slotD u i).used = false →
        hashmapApplyIteratorAux f (i :: is) u s =
          hashmapApplyIteratorAux f is u s) ∧
      ((slotD u i).used = true →
        ((f s (slotD u i)).1 = -1 →
          hashmapApplyIteratorAux f (i :: is) u s =
            hashmapApplyIteratorAux f is (clearSlot u i) (f s (slotD u i)).2 ∧
          slotD (clearSlot u i) i = emptyElement ∧
          (Valid u → (clearSlot u i).size = u.size - 1 ∧ 1 ≤ u.size)) ∧
        ((f s (slotD u i)).1 = 0 →
          hashmapApplyIteratorAux f (i :: is) u s =
            hashmapApplyIteratorAux f is u (f s (slotD u i)).2) ∧
        ((f s (slotD u i)).1 ≠ -1 → (f s (slotD u i)).1 ≠ 0 →
          hashmapApplyIteratorAux f (i :: is) u s = (1, u, (f s (slotD u i)).2)))) ∧
    ((∀ s e, (f s e).1 = -1 ∨ (f s e).1 = 0) →
      (hashmapApplyIterator t f c).1 = 0 ∧
      (hashmapApplyIterator t f c).2.2 =
        ((t.data.filter fun e => e.used).foldl (fun s e => (f s e).2) c)) ∧
    ((∀ s e, (f s e).1 = -1) →
      (∀ i, (slotD (hashmapApplyIterator t f c).2.1 i).used = false) ∧
      (hashmapApplyIterator t f c).2.1.size = 0) ∧
    (∀ e rest, t.data.filter (fun x => x.used) = e :: rest →
      (f c e).1 ≠ -1 → (f c e).1 ≠ 0 →
      hashmapApplyIterator t f c = (1, t, (f c e).2)) ∧
    Valid (hashmapApplyIterator t f c).2.1 ∧
    ((hashmapDestroyWithOwnership t
        (fun (n : Nat) (_ : HashmapElement) => ((-1 : Int), n + 1)) 0).2.2 =
      (t.data.filter fun e => e.used).length ∧
    (hashmapDestroyWithOwnership t
        (fun (n : Nat) (_ : HashmapElement) => ((-1 : Int), n + 1)) 0).1 = false) := by
  have hlen : t.data.length = t.tableSize := hv.2.2.2.1
  have hmap : (List.range t.tableSize).map (slotD t) = t.data := by
    have h1 : (slotD t) = fun i => t.data.getD i emptyElement := rfl
    rw [h1, ← hlen, map_getD_range]
  refine ⟨rfl, ?_, ?_, ?_, ?_, ?_, ?_⟩
  · intro i is u s
    refine ⟨fun hu => applyIterAux_cons_unused f is u s hu, fun hu => ⟨?_, ?_, ?_⟩⟩
    · intro hr
      refine ⟨applyIterAux_cons_remove f is u s hu hr,
        slotD_clearSlot_self (used_lt_length hu), fun hvu => ?_⟩
      exact (clearSlot_valid hvu (used_lt_length hu) hu).2
    · intro hk
      exact applyIterAux_cons_keep f is u s hu hk
    · intro h1 h0
      exact applyIterAux_cons_stop f is u s hu h1 h0
  · intro hf
    have hfold := applyIterAux_fold f hf (List.range t.tableSize) t c (List.nodup_range _)
    rw [hmap] at hfold
    exact hfold
  · intro hf
    obtain ⟨hin, hout⟩ :=
      applyIterAux_remove_all f hf (List.range t.tableSize) t c (List.nodup_range _)
    show (∀ i, (slotD (hashmapApplyIteratorAux f
        (List.range t.tableSize) t c).2.1 i).used = false) ∧
      (hashmapApplyIteratorAux f (List.range t.tableSize) t c).2.1.size = 0
    have hall : ∀ i, (slotD (hashmapApplyIteratorAux f
        (List.range t.tableSize) t c).2.1 i).used = false := by
      intro i
      by_cases hi : i < t.tableSize
      · exact hin i (List.mem_range.2 hi)
      · rw [hout i (by simpa using hi)]
        show (t.data.getD i emptyElement).used = false
        rw [getD_eq_default t.data emptyElement (by omega)]
        rfl
    refine ⟨hall, ?_⟩
    have hvR := (applyIterAux_preserves f (List.range t.tableSize) t c hv).1
    rw [hvR.2.2.2.2.1]
    rw [List.countP_eq_zero]
    intro e he
    obtain ⟨i, hi, rfl⟩ := mem_data_iff_slotD.1 he
    simp [hall i]
  · intro e rest hfilter h1 h0
    refine applyIterAux_stop f (List.range t.tableSize) t c e rest ?_ h1 h0
    rw [hmap]
    exact hfilter
  · exact (applyIterAux_preserves f (List.range t.tableSize) t c hv).1
  · have hfold := applyIterAux_fold
      (fun (n : Nat) (_ : HashmapElement) => ((-1 : Int), n + 1))
      (fun _ _ => Or.inl rfl) (List.range t.tableSize) t 0 (List.nodup_range _)
    rw [hmap] at hfold
    constructor
    · show (hashmapApplyIteratorAux
          (fun (n : Nat) (_ : HashmapElement) => ((-1 : Int), n + 1))
          (List.range t.tableSize) t 0).2.2 = _
      rw [hfold.2]
      simpa using foldl_count (t.data.filter fun e => e.used) 0
    · show decide ((hashmapApplyIteratorAux
          (fun (n : Nat) (_ : HashmapElement) => ((-1 : Int), n + 1))
          (List.range t.tableSize) t 0).1 ≠ 0) = false
      rw [hfold.1]
      decide

theorem applyIterator_contract_witness :
    Valid tW ∧ (slotD tW 2).used = true ∧
    ((hashmapDestroyWithOwnership tW
        (fun (n : Nat) (_ : HashmapElement) => ((-1 : Int), n + 1)) 0).2.2 =
      (tW.data.filter fun e => e.used).length ∧
    (hashmapDestroyWithOwnership tW
        (fun (n : Nat) (_ : HashmapElement) => ((-1 : Int), n + 1)) 0).1 = false) ∧
    hashmapApplyIteratorAux (fun (n : Nat) (_ : HashmapElement) => ((5 : Int), n))
      [2, 3] tW 1 = (1, tW, 1) ∧
    hashmapApplyIteratorAux (fun (n : Nat) (_ : HashmapElement) => ((-1 : Int), n))
      [0, 1] tW 0 =
      hashmapApplyIteratorAux (fun (n : Nat) (_ : HashmapElement) => ((-1 : Int), n))
        [1] (clearSlot tW 0) 0 ∧
    ((clearSlot tW 0).size = tW.size - 1 ∧ 1 ≤ tW.size) :=
  ⟨by decide, by decide,
   (applyIterator_contract tW
     (fun (n : Nat) (_ : HashmapElement) => ((-1 : Int), n + 1)) 0
     (by decide)).2.2.2.2.2.2,
   (((applyIterator_contract tW
     (fun (n : Nat) (_ : HashmapElement) => ((5 : Int), n)) 0
     (by decide)).2.1 2 [3] tW 1).2 (by decide)).2.2 (by decide) (by decide),
   ((((applyIterator_contract tW
     (fun (n : Nat) (_ : HashmapElement) => ((-1 : Int), n)) 0
     (by decide)).2.1 0 [1] tW 0).2 (by decide)).1 (by decide)).1,
   ((((applyIterator_contract tW
     (fun (n : Nat) (_ : HashmapElement) => ((-1 : Int), n)) 0
     (by decide)).2.1 0 [1] tW 0).2 (by decide)).1 (by decide)).2.2 (by decide)⟩

/-- C6: on a valid table, removing a present key returns success, zeroes
every field of the matching slot, decrements the count by one, and
leaves every other slot (and hence the stored values it detaches the
key from) untouched; a subsequent `get` of that key misses.  Removing
an absent key returns `NotFound` (flag 1) with the table completely
unchanged. -/
theorem remove_contract (t : Hashmap) (key : List Nat) (len : Nat) (hv : Valid t) :
    (∀ j, isMatchAt t key len j = true →
      hashmapRemove t key len = (0, clearSlot t j) ∧
      slotD (hashmapRemove t key len).2 j = emptyElement ∧
      (hashmapRemove t key len).2.size = t.size - 1 ∧ 1 ≤ t.size ∧
      (∀ i, i ≠ j → slotD (hashmapRemove t key len).2 i = slotD t i) ∧
      hashmapGet (hashmapRemove t key len).2 key len = none) ∧
    (containsKey t key len = false → hashmapRemove t key len = (1, t)) := by
  constructor
  · intro j hj
    have hu : (slotD t j).used = true := by
      simp only [isMatchAt, Bool.and_eq_true] at hj
      exact hj.1
    have hcm : hashmapCheckIfMatch (slotD t j) key len = true := by
      simp only [isMatchAt, Bool.and_eq_true] at hj
      exact hj.2
    have hjlt := isMatchAt_lt_length hj
    have hrm := hashmapRemove_eq_clear hv hj
    obtain ⟨hvc, hsz, hpos⟩ := clearSlot_valid hv hjlt hu
    rw [hrm]
    refine ⟨rfl, slotD_clearSlot_self hjlt, hsz, hpos, ?_, ?_⟩
    · intro i hij
      exact slotD_clearSlot_ne t (Ne.symm hij)
    · apply hashmapGet_eq_none
      apply containsKey_eq_false_iff.1
      apply containsKey_clearSlot_match hv hu
      rw [← checkIfMatch_eq_kMatch]
      exact hcm
  · intro h
    exact hashmapRemove_eq_none (isMatchAt_of_not_contains h)

theorem remove_contract_witness :
    Valid tW ∧ isMatchAt tW [5] 1 0 = true ∧
    hashmapRemove tW [5] 1 = (0, clearSlot tW 0) ∧
    (hashmapRemove tW [5] 1).2.size = tW.size - 1 ∧
    hashmapGet (hashmapRemove tW [5] 1).2 [5] 1 = none ∧
    (containsKey tW [3] 1 = false ∧ hashmapRemove tW [3] 1 = (1, tW)) :=
  ⟨by decide, by decide,
   ((remove_contract tW [5] 1 (by decide)).1 0 (by decide)).1,
   ((remove_contract tW [5] 1 (by decide)).1 0 (by decide)).2.2.1,
   ((remove_contract tW [5] 1 (by decide)).1 0 (by decide)).2.2.2.2.2,
   by decide, (remove_contract tW [3] 1 (by decide)).2 (by decide)⟩

/-- C8: `hashmapStringHasher` is a pure function of exactly the key
bytes up to the given length, the length itself, and the capacity: any
two tables with equal capacity and any two byte sequences agreeing on
the first `len` bytes hash to the same bucket (in particular repeated
calls with the same arguments agree), and with nonzero capacity the
bucket index is strictly below the capacity. -/
theorem hasher_contract (t t' : Hashmap) (key key' : List Nat) (len : Nat)
    (hts : t.tableSize = t'.tableSize) (hb : ∀ i < len, key.getD i 0 = key'.getD i 0)
    (hpos : 0 < t.tableSize) :
    hashmapStringHasher t key len = hashmapStringHasher t' key' len ∧
    hashmapStringHasher t key len < t.tableSize :=
  ⟨hashmapStringHasher_congr hts hb, hashmapStringHasher_lt t key len hpos⟩

theorem hasher_contract_witness :
    tW.tableSize = tX.tableSize ∧ (∀ i < 1, [5].getD i 0 = [5, 99].getD i 0) ∧
    0 < tW.tableSize ∧
    (hashmapStringHasher tW [5] 1 = hashmapStringHasher tX [5, 99] 1 ∧
      hashmapStringHasher tW [5] 1 < tW.tableSize) :=
  ⟨rfl, by decide, by decide,
   hasher_contract tW tX [5] [5, 99] 1 rfl (by decide) (by decide)⟩

/-- C9: `hashmapGet` and `hashmapRemove` scan the full
`HASHMAP_MAX_CHAIN_LENGTH`-slot probe window and never terminate early
at an unoccupied slot: both are exactly a `find?` over the whole
window, so a key whose matching slot sits any number of steps up to 7
forward (modulo capacity) of its hash start index is found — `get`
answers and `remove` succeeds — even when intervening probe-chain slots
are unoccupied. -/
theorem full_window_scan_contract (t : Hashmap) (key : List Nat) (len off : Nat)
    (hts : 0 < t.tableSize) (hoff : off < HASHMAP_MAX_CHAIN_LENGTH)
    (hmatch : isMatchAt t key len
      ((hashmapStringHasher t key len + off) % t.tableSize) = true) :
    hashmapGet t key len =
      ((bucketWindow t key len).find? (isMatchAt t key len)).map
        (fun j => (slotD t j).data) ∧
    (hashmapRemove t key len =
      match (bucketWindow t key len).find? (isMatchAt t key len) with
      | some j => (0, clearSlot t j)
      | none => (1, t)) ∧
    (hashmapGet t key len).isSome = true ∧
    (hashmapRemove t key len).1 = 0 := by
  have hget : hashmapGet t key len =
      ((bucketWindow t key len).find? (isMatchAt t key len)).map
        (fun j => (slotD t j).data) := by
    rw [hashmapGet, hashmapGetLoop_eq]
    rfl
  have hrem : hashmapRemove t key len =
      match (bucketWindow t key len).find? (isMatchAt t key len) with
      | some j => (0, clearSlot t j)
      | none => (1, t) := by
    rw [hashmapRemove, hashmapRemoveLoop_eq]
    rfl
  have hsome : ((bucketWindow t key len).find? (isMatchAt t key len)).isSome = true := by
    rw [List.find?_isSome]
    exact ⟨_, (mem_bucketWindow_iff hts).2 ⟨off, hoff, rfl⟩, hmatch⟩
  obtain ⟨j, hj⟩ := Option.isSome_iff_exists.1 hsome
  refine ⟨hget, hrem, ?_, ?_⟩
  · rw [hget, hj]
    rfl
  · rw [hrem, hj]

theorem full_window_scan_contract_witness :
    0 < tW9.tableSize ∧ 2 < HASHMAP_MAX_CHAIN_LENGTH ∧
    (slotD tW9 ((hashmapStringHasher tW9 [9] 1 + 0) % tW9.tableSize)).used = false ∧
    (slotD tW9 ((hashmapStringHasher tW9 [9] 1 + 1) % tW9.tableSize)).used = false ∧
    isMatchAt tW9 [9] 1 ((hashmapStringHasher tW9 [9] 1 + 2) % tW9.tableSize) = true ∧
    ((hashmapGet tW9 [9] 1).isSome = true ∧ (hashmapRemove tW9 [9] 1).1 = 0) :=
  ⟨by decide, by decide, by decide, by decide, by decide,
   (full_window_scan_contract tW9 [9] 1 2 (by decide) (by decide) (by decide)).2.2⟩

/-- C10: `hashmapCreate` writes the requested capacity and a zero count
into the caller-supplied output structure before validating the
capacity, so a call rejected for an invalid capacity (0 or not a power
of two) still returns the output with `tableSize` set to the invalid
request and `size` set to 0, while the `data` field is never assigned
and keeps whatever the caller's structure held. -/
theorem create_output_prewrite (alloc : Nat → Bool) (n : Nat) (out : Hashmap)
    (h : n = 0 ∨ n &&& (n - 1) ≠ 0) :
    (hashmapCreate alloc n out).1 = 1 ∧
    (hashmapCreate alloc n out).2.tableSize = n ∧
    (hashmapCreate alloc n out).2.size = 0 ∧
    (hashmapCreate alloc n out).2.data = out.data := by
  rw [hashmapCreate_fail_invalid alloc n out h]
  exact ⟨rfl, rfl, rfl, rfl⟩

theorem create_output_prewrite_witness :
    ((3 : Nat) = 0 ∨ 3 &&& (3 - 1) ≠ 0) ∧
    ((hashmapCreate allocAll 3 tW).1 = 1 ∧
     (hashmapCreate allocAll 3 tW).2.tableSize = 3 ∧
     (hashmapCreate allocAll 3 tW).2.size = 0 ∧
     (hashmapCreate allocAll 3 tW).2.data = tW.data) :=
  ⟨by decide, create_output_prewrite allocAll 3 tW (by decide)⟩
end DynamicHashmap
